import Mathlib

/-!
Shallow embedding of `src/task_manager.py` (module `task_manager`): the task
classes `Zadanie`, `ZadaniePiorytetowe`, `ZadanieRegularne`, the manager
`ManagerZadan` with its operations (`oznacz_jako_wykonane`, `edytuj_zadanie`,
the sorted display of menu option 6, `zapisz_do_pliku`, `wczytaj_z_pliku`) and
the path-confinement check built from `os.path.join` / `os.path.commonpath`.

Python objects are modelled by their `__dict__`: an insertion-ordered
association list from attribute names to runtime values.  Attribute values
occurring in this program are `None`, booleans, strings and `datetime.date`
values, captured by `PyVal`.  Object identity (Python's default `==` used by
`in`/`list.remove`) is modelled by indices into a heap `PyState.objs`.
-/

set_option maxHeartbeats 1000000

/-- Calendar date as held by a Python `datetime.date`: year, month, day. -/
structure Date where
  y : Nat
  m : Nat
  d : Nat
deriving DecidableEq, Repr

/-- Leap-year rule used by `datetime.date` (Gregorian). -/
def isLeap (y : Nat) : Bool :=
  y % 4 == 0 && (y % 100 != 0 || y % 400 == 0)

/-- Number of days of month `m` in year `y`, as validated by `datetime.date`. -/
def daysInMonth (y m : Nat) : Nat :=
  if m == 2 then (if isLeap y then 29 else 28)
  else if m == 4 || m == 6 || m == 9 || m == 11 then 30
  else 31

/-- The triples that `datetime.date` accepts: year 1..9999, valid month/day.
Every Python `date` object satisfies this invariant. -/
def Date.Valid (dt : Date) : Prop :=
  1 ≤ dt.y ∧ dt.y ≤ 9999 ∧ 1 ≤ dt.m ∧ dt.m ≤ 12 ∧ 1 ≤ dt.d ∧ dt.d ≤ daysInMonth dt.y dt.m

instance (dt : Date) : Decidable dt.Valid := by
  unfold Date.Valid; infer_instance

/-- `datetime.max.date()`, the key used for tasks without a due date in the
sorted display (menu option 6). -/
def maxDate : Date := ⟨9999, 12, 31⟩

/-- The three task classes of the source module. -/
inductive Klasa where
  | zadanie
  | piorytetowe
  | regularne
deriving DecidableEq, Repr

/-- `type(z).__name__`, the class tag written as the first field of a record. -/
def klasaName : Klasa → String
  | .zadanie => "Zadanie"
  | .piorytetowe => "ZadaniePiorytetowe"
  | .regularne => "ZadanieRegularne"

/-- Runtime values stored in task attributes in this program. -/
inductive PyVal where
  | none
  | bool (b : Bool)
  | str (s : String)
  | date (dt : Date)
deriving DecidableEq, Repr

/-- Python truthiness (`if v:`) for the values of `PyVal`: `None` is falsy,
booleans are themselves, a string is truthy iff nonempty, a date is truthy. -/
def pyTruthy : PyVal → Bool
  | .none => false
  | .bool b => b
  | .str s => !s.isEmpty
  | .date _ => true

/-- Python `==` on the values of `PyVal` (no cross-type equalities arise in
this program; `date` compares by value, strings by value). -/
def pyEq : PyVal → PyVal → Bool
  | .none, .none => true
  | .bool a, .bool b => a == b
  | .str a, .str b => a == b
  | .date a, .date b => a == b
  | _, _ => false

/-- A Python `__dict__` (or keyword dict): attribute names to values, in
insertion order.  Keys are unique in any dict the program builds. -/
abbrev Dict := List (String × PyVal)

/-- Attribute lookup: value of the first (unique) binding of `k`. -/
def getattr? (d : Dict) (k : String) : Option PyVal :=
  (d.find? (fun p => p.1 == k)).map Prod.snd

/-- Whether the dict binds `k`. -/
def hasattr (d : Dict) (k : String) : Bool :=
  d.any (fun p => p.1 == k)

/-- Python `setattr` / dict assignment: update the existing binding in place
(keeping its position) or append a new binding at the end. -/
def setattr (d : Dict) (k : String) (v : PyVal) : Dict :=
  if hasattr d k then d.map (fun p => if p.1 == k then (k, v) else p)
  else d ++ [(k, v)]

/-- Apply a keyword dict left to right by `setattr`, as the constructor loop
`for k, v in kwargs.items(): setattr(self, k, v)` does. -/
def setattrs (d : Dict) (kw : Dict) : Dict :=
  kw.foldl (fun acc p => setattr acc p.1 p.2) d

/-- Character-list form of Python `str.split(sep)`: split on every occurrence
of `sep`; the result is always nonempty and `"".split(sep) == [""]`. -/
def splitChars (sep : Char) : List Char → List (List Char)
  | [] => [[]]
  | c :: cs =>
    match splitChars sep cs with
    | [] => [[]]
    | h :: t => if c = sep then [] :: h :: t else (c :: h) :: t

/-- Character-list form of Python `sep.join(parts)`. -/
def joinChars (sep : Char) : List (List Char) → List Char
  | [] => []
  | [l] => l
  | l :: ls => l ++ sep :: joinChars sep ls

/-- Python `s.split(sep, 1)` restricted to the two-part success case:
`none` models the `ValueError` of unpacking a single part into `k, v`. -/
def splitFirst (sep : Char) : List Char → Option (List Char × List Char)
  | [] => none
  | c :: cs =>
    if c = sep then some ([], cs)
    else match splitFirst sep cs with
      | none => none
      | some (k, v) => some (c :: k, v)

/-- The whitespace stripped by Python `str.strip()`. -/
def isSpaceC (c : Char) : Bool :=
  c == ' ' || c == '\t' || c == '\n' || c == '\r' || c == '\x0b' || c == '\x0c'

/-- Python `str.strip()`: drop whitespace from both ends. -/
def stripChars (l : List Char) : List Char :=
  ((l.dropWhile isSpaceC).reverse.dropWhile isSpaceC).reverse

/-- Decimal digit to its character, for rendering numbers (`str(n)`). -/
def digitChar : Nat → Char
  | 0 => '0'
  | 1 => '1'
  | 2 => '2'
  | 3 => '3'
  | 4 => '4'
  | 5 => '5'
  | 6 => '6'
  | 7 => '7'
  | 8 => '8'
  | _ => '9'

/-- Character to its decimal digit value. -/
def digitVal (c : Char) : Nat := c.toNat - 48

/-- Fuel-driven decimal rendering of a positive number, most significant digit
first, no leading zeros.  `fuel ≥ n` makes it total and exact. -/
def natDigitsAux : Nat → Nat → List Char
  | 0, _ => []
  | _ + 1, 0 => []
  | fuel + 1, Nat.succ n =>
    natDigitsAux fuel (Nat.succ n / 10) ++ [digitChar (Nat.succ n % 10)]

/-- Python `str(n)` for a natural number, as characters. -/
def natToDec (n : Nat) : List Char :=
  if n == 0 then ['0'] else natDigitsAux n n

/-- Numeric value of a digit string (most significant first). -/
def digitsToNat (l : List Char) : Nat :=
  l.foldl (fun a c => a * 10 + digitVal c) 0

/-- Left-pad with `'0'` to width `w`, as `%04d` / `%02d` formatting does. -/
def padLeft (w : Nat) (l : List Char) : List Char :=
  List.replicate (w - l.length) '0' ++ l

/-- Python `str(date)`: ISO `YYYY-MM-DD` with zero padding. -/
def renderDateChars (dt : Date) : List Char :=
  padLeft 4 (natToDec dt.y) ++ ['-'] ++ padLeft 2 (natToDec dt.m) ++ ['-'] ++ padLeft 2 (natToDec dt.d)

/-- Whether every character is a decimal digit (and the list may be empty). -/
def allDigits (l : List Char) : Bool := l.all Char.isDigit

/-- `datetime.strptime(s, "%Y-%m-%d").date()` as a partial function: exactly
four digits of year, one or two digits of month (value 1..12) and day, then
validation by the `date` constructor.  `none` models the `ValueError`. -/
def parseYMD (s : String) : Option Date :=
  match splitChars '-' s.toList with
  | [ys, ms, ds] =>
    if allDigits ys && ys.length == 4
        && allDigits ms && decide (1 ≤ ms.length) && decide (ms.length ≤ 2)
        && allDigits ds && decide (1 ≤ ds.length) && decide (ds.length ≤ 2) then
      let dt : Date := ⟨digitsToNat ys, digitsToNat ms, digitsToNat ds⟩
      if dt.Valid then some dt else none
    else none
  | _ => none

/-- Python `str(v)` for the values a task attribute can hold, as used by the
f-strings of `zapisz_do_pliku`. -/
def pyStr : PyVal → String
  | .none => "None"
  | .bool true => "True"
  | .bool false => "False"
  | .str s => s
  | .date dt => String.mk (renderDateChars dt)

/-- The `termin` constructor argument of `Zadanie.__init__`: already-parsed
date, text, or `None`. -/
inductive TerminArg where
  | noneArg
  | str (s : String)
  | date (dt : Date)
deriving DecidableEq, Repr

/-- The lenient date handling of `Zadanie.__init__`: a string is parsed as
`%Y-%m-%d`, a parse failure silently yields `None`; other values pass through. -/
def terminVal : TerminArg → PyVal
  | .noneArg => .none
  | .str s =>
    match parseYMD s with
    | some dt => .date dt
    | none => .none
  | .date dt => .date dt

/-- A task object: its class tag and its `__dict__`. -/
structure PyObj where
  klasa : Klasa
  dict : Dict
deriving DecidableEq, Repr

/-- `Zadanie.__init__`: sets `tytul`, `opis`, `termin_wykonaia` (lenient
parse), then `wykonane = False`, then every keyword argument by `setattr` —
in that order, so keyword arguments can overwrite the earlier fields. -/
def mkZadanie (tytul opis : String) (termin : TerminArg) (kwargs : Dict) : PyObj :=
  ⟨.zadanie,
    setattrs
      [("tytul", .str tytul), ("opis", .str opis),
       ("termin_wykonaia", terminVal termin), ("wykonane", .bool false)]
      kwargs⟩

/-- `ZadaniePiorytetowe.__init__`: the base constructor, then
`self.priorytet = priorytet` (default `"Średni"`). -/
def mkZadaniePiorytetowe (tytul opis : String) (termin : TerminArg)
    (priorytet : PyVal) (kwargs : Dict) : PyObj :=
  ⟨.piorytetowe, setattr (mkZadanie tytul opis termin kwargs).dict "priorytet" priorytet⟩

/-- `ZadanieRegularne.__init__`: the base constructor, then
`self.powtarzalnosc = powtarzalnosc` (default `"codziennie"`). -/
def mkZadanieRegularne (tytul opis : String) (termin : TerminArg)
    (powtarzalnosc : PyVal) (kwargs : Dict) : PyObj :=
  ⟨.regularne, setattr (mkZadanie tytul opis termin kwargs).dict "powtarzalnosc" powtarzalnosc⟩

/-- `Zadanie.wykonany` (the toggle): `self.wykonane = not self.wykonane`. -/
def wykonany (d : Dict) : Dict :=
  setattr d "wykonane" (.bool (!(pyTruthy ((getattr? d "wykonane").getD .none))))

/-- The heap of task objects; indices are object identities. -/
structure PyState where
  objs : List PyObj
deriving DecidableEq, Repr

/-- `ManagerZadan`: a save directory and the ordered collection `zadania`
of task objects (held by identity). -/
structure ManagerZadan where
  save_dir : String
  zadania : List Nat
deriving DecidableEq, Repr

/-- Placeholder object for out-of-range heap access (never reached on the
modelled executions). -/
def defaultObj : PyObj := ⟨.zadanie, []⟩

/-- Mutate the object at identity `i` in place. -/
def updateObj (st : PyState) (i : Nat) (f : PyObj → PyObj) : PyState :=
  ⟨st.objs.set i (f ((st.objs[i]?).getD defaultObj))⟩

/-- Attribute value of the object at identity `i` (defaulting to `None` for
an absent attribute, which the modelled executions never exercise). -/
def attrOf (st : PyState) (i : Nat) (k : String) : PyVal :=
  ((st.objs[i]?).map (fun z => (getattr? z.dict k).getD .none)).getD .none

/-- `ManagerZadan.oznacz_jako_wykonane`: `target = zadanie or next((z for z in
self.zadania if z.tytul == tytul), None)`, then `if target:
target.wykonane = True`.  The passed object is used without any membership
check. -/
def oznacz_jako_wykonane (st : PyState) (m : ManagerZadan)
    (zadanie : Option Nat) (tytul : Option String) : PyState :=
  let tytulVal : PyVal := match tytul with | some s => .str s | none => .none
  let target : Option Nat :=
    match zadanie with
    | some i => some i
    | none => m.zadania.find? (fun i => pyEq (attrOf st i "tytul") tytulVal)
  match target with
  | some i => updateObj st i (fun z => ⟨z.klasa, setattr z.dict "wykonane" (.bool true)⟩)
  | none => st

/-- `ManagerZadan.edytuj_zadanie`: guarded by `if zadanie in self.zadania`;
each of `nowy_tytul` / `nowy_opis` / `nowy_termin` is applied only when
truthy; every keyword argument is then applied by `setattr`. -/
def edytuj_zadanie (st : PyState) (m : ManagerZadan) (i : Nat)
    (nowy_tytul nowy_opis : Option String) (nowy_termin : Option Date)
    (kwargs : Dict) : PyState :=
  if i ∈ m.zadania then
    updateObj st i (fun z =>
      let d := z.dict
      let d := match nowy_tytul with
        | some s => if s.isEmpty then d else setattr d "tytul" (.str s)
        | none => d
      let d := match nowy_opis with
        | some s => if s.isEmpty then d else setattr d "opis" (.str s)
        | none => d
      let d := match nowy_termin with
        | some dt => setattr d "termin_wykonaia" (.date dt)
        | none => d
      ⟨z.klasa, setattrs d kwargs⟩)
  else st

/-- Sort key of menu option 6: `x.termin_wykonaia or datetime.max.date()`.
On the modelled executions the attribute is a date or `None`. -/
def keyDate (st : PyState) (i : Nat) : Date :=
  match attrOf st i "termin_wykonaia" with
  | .date dt => dt
  | _ => maxDate

/-- Lexicographic `<=` on dates, Python's `date` ordering. -/
def dateLe (a b : Date) : Prop :=
  a.y < b.y ∨ (a.y = b.y ∧ (a.m < b.m ∨ (a.m = b.m ∧ a.d ≤ b.d)))

instance (a b : Date) : Decidable (dateLe a b) := by
  unfold dateLe; infer_instance

/-- Strict lexicographic `<` on dates. -/
def dateLt (a b : Date) : Prop := ¬ dateLe b a

instance (a b : Date) : Decidable (dateLt a b) := by
  unfold dateLt; infer_instance

/-- Stable insertion into a key-sorted list: walk past strictly smaller keys,
place before the first key that is not strictly smaller. -/
def insertByKey (st : PyState) (i : Nat) : List Nat → List Nat
  | [] => [i]
  | j :: js =>
    if dateLt (keyDate st j) (keyDate st i) then j :: insertByKey st i js
    else i :: j :: js

/-- `sorted(manager.zadania, key=lambda x: x.termin_wykonaia or
datetime.max.date())` of menu option 6: Python's `sorted` is the stable
ascending sort by that key, which the stable insertion sort computes; it
returns a new list and leaves `manager.zadania` untouched. -/
def sortowane (st : PyState) (l : List Nat) : List Nat :=
  l.foldr (insertByKey st) []

/-- Components of a POSIX path as `os.path.commonpath` uses them: split on
`'/'`, drop empty components and `"."`. -/
def pathComponents (p : String) : List String :=
  ((splitChars '/' p.toList).map String.mk).filter (fun c => c ≠ "" && c ≠ ".")

/-- Longest common prefix of two component lists. -/
def commonPrefixL : List String → List String → List String
  | a :: as, b :: bs => if a = b then a :: commonPrefixL as bs else []
  | _, _ => []

/-- `sep.join(parts)` for strings (used to rebuild paths). -/
def sJoin (sep : String) : List String → String
  | [] => ""
  | [x] => x
  | x :: xs => x ++ sep ++ sJoin sep xs

/-- `os.path.commonpath([p, q])` for two absolute POSIX paths: the longest
common prefix of their filtered components — `..` components are compared
textually, never resolved. -/
def commonpath2 (p q : String) : String :=
  "/" ++ sJoin "/" (commonPrefixL (pathComponents p) (pathComponents q))

/-- Whether a string starts with `'/'` (`os.path.join`'s absolute test). -/
def startsWithSlash (s : String) : Bool :=
  match s.toList with
  | '/' :: _ => true
  | _ => false

/-- Whether a string ends with `'/'`. -/
def endsWithSlash (s : String) : Bool :=
  match s.toList.getLast? with
  | some '/' => true
  | _ => false

/-- `os.path.join(a, b)` on POSIX for one extra component. -/
def osJoin (a b : String) : String :=
  if startsWithSlash b then b
  else if a == "" || endsWithSlash a then a ++ b
  else a ++ "/" ++ b

/-- Resolve `..` components lexically (POSIX `os.path.normpath` on an absolute
path): a `..` pops the last kept component, or is dropped at the root.  Used
only to state where a joined path actually points. -/
def normComponents (comps : List String) : List String :=
  comps.foldl (fun stack c => if c = ".." then stack.dropLast else stack ++ [c]) []

/-- Lexical normalisation of an absolute POSIX path, `os.path.normpath`. -/
def normPath (p : String) : String :=
  "/" ++ sJoin "/" (normComponents (pathComponents p))

/-- The exceptions the manager's file operations can raise. -/
inductive PyErr where
  | valueError
  | indexError
  | typeError
deriving DecidableEq, Repr

/-- The guard shared by `zapisz_do_pliku` and `wczytaj_z_pliku`:
`os.path.commonpath([self.save_dir, full_path]) != self.save_dir` raises
`ValueError` before any file is opened. -/
def pathOk (saveDir fname : String) : Bool :=
  commonpath2 saveDir (osJoin saveDir fname) == saveDir

/-- The four attribute names excluded from the `extras` comprehension of
`zapisz_do_pliku` (and from `__str__`). -/
def coreNames : List String := ["tytul", "opis", "termin_wykonaia", "wykonane"]

/-- Attribute read `z.k` on an object (total, with `None` for an absent
attribute, which the modelled executions never exercise). -/
def objAttr (z : PyObj) (k : String) : PyVal :=
  (getattr? z.dict k).getD .none

/-- One record of `zapisz_do_pliku`, as the list of `;`-joined fields:
`[type name, tytul, opis, str(termin_wykonaia)]`, then `k=v` for every
non-core attribute in `__dict__` order, then `wykonane=<True|False>`. -/
def saveLineStr (z : PyObj) : List String :=
  [klasaName z.klasa, pyStr (objAttr z "tytul"), pyStr (objAttr z "opis"),
    pyStr (objAttr z "termin_wykonaia")]
  ++ (z.dict.filter (fun p => !(coreNames.contains p.1))).map
      (fun p => p.1 ++ "=" ++ pyStr p.2)
  ++ ["wykonane=" ++ pyStr (objAttr z "wykonane")]

/-- The characters of one record line (fields joined with `;`). -/
def saveLineChars (z : PyObj) : List Char :=
  joinChars ';' ((saveLineStr z).map String.toList)

/-- The full text written by `zapisz_do_pliku`: each task of `self.zadania`
in order, one line each followed by `"\n"`. -/
def saveContent (st : PyState) (m : ManagerZadan) : String :=
  String.mk (List.flatten (m.zadania.map
    (fun i => saveLineChars ((st.objs[i]?).getD defaultObj) ++ ['\n'])))

/-- `ManagerZadan.zapisz_do_pliku`: join the filename onto `save_dir`, run the
`commonpath` guard (raising `ValueError` on failure), otherwise open the
resolved path for writing and emit the records.  The result is the resolved
path and the written text. -/
def zapisz_do_pliku (st : PyState) (m : ManagerZadan) (nazwa_pliku : String) :
    Except PyErr (String × String) :=
  if pathOk m.save_dir nazwa_pliku then
    .ok (osJoin m.save_dir nazwa_pliku, saveContent st m)
  else .error .valueError

/-- Python `v == "True"`/`"False"` coercion of `wczytaj_z_pliku`:
`attrs[k] = (v == "True") if v in ("True","False") else v`. -/
def coerceVal (v : String) : PyVal :=
  if v == "True" || v == "False" then .bool (v == "True") else .str v

/-- The `attrs` dict built by the pair loop of `wczytaj_z_pliku`: each field
splits on the first `=` (a field without `=` raises `ValueError`), the value
is coerced, and the pair is stored by dict assignment. -/
def parsePairs (pairs : List String) : Except PyErr Dict :=
  pairs.foldlM
    (fun d pr =>
      match splitFirst '=' pr.toList with
      | none => .error PyErr.valueError
      | some (k, v) => .ok (setattr d (String.mk k) (coerceVal (String.mk v))))
    []

/-- One line of `wczytaj_z_pliku` up to the constructed task object:
`line.strip().split(";")`, the four fixed fields (an `IndexError` if fewer),
the attribute pairs, the strict `strptime` date (raising `ValueError`),
then dispatch on the type tag.  A decoded key that collides with a parameter
the call already binds (`tytul`, `opis`, `termin` positionally, or the bound
`self`) raises `TypeError` at the constructor call.  Finally, a truthy
decoded `wykonane` is re-applied after construction. -/
def parseLineObj (rawLine : String) : Except PyErr PyObj :=
  match (splitChars ';' (stripChars rawLine.toList)).map String.mk with
  | typ :: tytul :: opis :: terminStr :: attrPairs =>
    match parsePairs attrPairs with
    | .error e => .error e
    | .ok attrs =>
      match parseYMD terminStr with
      | none => .error PyErr.valueError
      | some dateVal =>
        if attrs.any (fun p =>
            p.1 == "tytul" || p.1 == "opis" || p.1 == "termin" || p.1 == "self") then
          .error PyErr.typeError
        else
          let zad :=
            if typ == "ZadaniePiorytetowe" then
              mkZadaniePiorytetowe tytul opis (.date dateVal)
                ((getattr? attrs "priorytet").getD (.str "Średni"))
                (attrs.filter (fun p => p.1 ≠ "priorytet"))
            else if typ == "ZadanieRegularne" then
              mkZadanieRegularne tytul opis (.date dateVal)
                ((getattr? attrs "powtarzalnosc").getD (.str "codziennie"))
                (attrs.filter (fun p => p.1 ≠ "powtarzalnosc"))
            else
              mkZadanie tytul opis (.date dateVal) attrs
          if pyTruthy ((getattr? attrs "wykonane").getD .none) then
            .ok ⟨zad.klasa, setattr zad.dict "wykonane" (.bool true)⟩
          else .ok zad
  | _ => .error PyErr.indexError

/-- One loop iteration of `wczytaj_z_pliku`: parse the line and append the
new object to `self.zadania`. -/
def loadLine (st : PyState) (m : ManagerZadan) (line : String) :
    Except PyErr (PyState × ManagerZadan) :=
  match parseLineObj line with
  | .error e => .error e
  | .ok z => .ok (⟨st.objs ++ [z]⟩, { m with zadania := m.zadania ++ [st.objs.length] })

/-- The line loop of `wczytaj_z_pliku`: lines already appended stay appended
when a later line raises; the optional error is the propagated exception. -/
def loadLines : PyState → ManagerZadan → List String → PyState × ManagerZadan × Option PyErr
  | st, m, [] => (st, m, none)
  | st, m, l :: ls =>
    match loadLine st m l with
    | .error e => (st, m, some e)
    | .ok (st', m') => loadLines st' m' ls

/-- Universal-newlines translation of text-mode reading (`open` with the
default `newline=None`): a `CR LF` pair and a lone `CR` are both delivered
as a single `LF`. -/
def univNl : List Char → List Char
  | [] => []
  | [c] => if c = '\r' then ['\n'] else [c]
  | c :: d :: rest =>
    if c = '\r' then
      if d = '\n' then '\n' :: univNl rest else '\n' :: univNl (d :: rest)
    else c :: univNl (d :: rest)

/-- The lines Python's file iteration yields from a text (each `line` of
`for line in f`, without its trailing newline, which `strip()` removes
anyway): universal-newlines translation, then split on `'\n'` and drop the
final empty piece. -/
def fileLines (content : String) : List String :=
  let ls := splitChars '\n' (univNl content.toList)
  (match ls.getLast? with
   | some [] => ls.dropLast
   | _ => ls).map String.mk

/-- `ManagerZadan.wczytaj_z_pliku`: the same `commonpath` guard (raising
`ValueError` before the file is opened), then the line loop over the content
of the resolved file. -/
def wczytaj_z_pliku (st : PyState) (m : ManagerZadan) (nazwa_pliku : String)
    (content : String) : PyState × ManagerZadan × Option PyErr :=
  if pathOk m.save_dir nazwa_pliku then loadLines st m (fileLines content)
  else (st, m, some PyErr.valueError)

/-- A task of the round-trip statement: class, core fields, the variant's own
field value, the completion flag applied after construction (`markDone` /
toggles), and the constructor keyword dict. -/
structure TaskSpec where
  klasa : Klasa
  tytul : String
  opis : String
  termin : Date
  pole : String
  wyk : Bool
  kwargs : Dict
deriving DecidableEq, Repr

/-- Build the task a `TaskSpec` describes through the source constructors,
then apply the completion flag as the manager's operations do. -/
def buildTask (sp : TaskSpec) : PyObj :=
  let z :=
    match sp.klasa with
    | .zadanie => mkZadanie sp.tytul sp.opis (.date sp.termin) sp.kwargs
    | .piorytetowe => mkZadaniePiorytetowe sp.tytul sp.opis (.date sp.termin) (.str sp.pole) sp.kwargs
    | .regularne => mkZadanieRegularne sp.tytul sp.opis (.date sp.termin) (.str sp.pole) sp.kwargs
  ⟨z.klasa, setattr z.dict "wykonane" (.bool sp.wyk)⟩

/-- Attribute names a round-trip extra key must avoid: the reserved core and
variant names of the data model (they would overwrite fields or collide with
constructor parameters on reload), and `self`, which collides with the bound
instance parameter of every constructor. -/
def reservedNames : List String :=
  ["tytul", "opis", "termin", "termin_wykonaia", "wykonane", "priorytet", "powtarzalnosc",
   "self"]

/-- A string that embeds into the record format unchanged: free of the field
separator `;`, the pair separator `=` and the line terminators (both `LF` and
`CR`: text-mode reading breaks lines at either). -/
def goodStr (s : String) : Prop :=
  (';' ∉ s.toList) ∧ ('=' ∉ s.toList) ∧ ('\n' ∉ s.toList) ∧ ('\r' ∉ s.toList)

instance (s : String) : Decidable (goodStr s) := by
  unfold goodStr; infer_instance

/-- An extra value the codec preserves: a boolean, or a text that embeds
unchanged and is not a boolean literal (those are coerced on load). -/
def goodVal : PyVal → Prop
  | .bool _ => True
  | .str s => goodStr s ∧ s ≠ "True" ∧ s ≠ "False"
  | _ => False

instance (v : PyVal) : Decidable (goodVal v) := by
  cases v <;> unfold goodVal <;> infer_instance

/-- The hypotheses of the amended round-trip: a valid due date, embeddable
title/description/variant-field (the latter not a boolean literal), and a
keyword dict with distinct, embeddable, non-reserved keys and preservable
values. -/
def GoodSpec (sp : TaskSpec) : Prop :=
  goodStr sp.tytul ∧ goodStr sp.opis ∧ sp.termin.Valid ∧
  goodStr sp.pole ∧ sp.pole ≠ "True" ∧ sp.pole ≠ "False" ∧
  (sp.kwargs.map Prod.fst).Nodup ∧
  ∀ p ∈ sp.kwargs, goodStr p.1 ∧ ¬ reservedNames.contains p.1 ∧ goodVal p.2

instance (sp : TaskSpec) : Decidable (GoodSpec sp) := by
  unfold GoodSpec; infer_instance

/-- Value of the last binding of `k` in a keyword list (the one `setattr`
leaves in place after the constructor loop). -/
def lastVal (kw : Dict) (k : String) : Option PyVal :=
  (kw.reverse.find? (fun p => p.1 == k)).map Prod.snd

/-- The four core bindings of a built task, with the completion flag. -/
def coreDict (sp : TaskSpec) : Dict :=
  [("tytul", .str sp.tytul), ("opis", .str sp.opis),
   ("termin_wykonaia", .date sp.termin), ("wykonane", .bool sp.wyk)]

/-- The variant's own binding, set after the base constructor. -/
def variantPart (sp : TaskSpec) : Dict :=
  match sp.klasa with
  | .zadanie => []
  | .piorytetowe => [("priorytet", .str sp.pole)]
  | .regularne => [("powtarzalnosc", .str sp.pole)]

/-- Normal form of the `__dict__` of a built task: core bindings, then the
keyword bindings in order, then the variant binding. -/
def normalDict (sp : TaskSpec) : Dict :=
  coreDict sp ++ sp.kwargs ++ variantPart sp

/-- The record field written for one attribute pair. -/
def pairStr (p : String × PyVal) : String :=
  p.1 ++ "=" ++ pyStr p.2

/-- Round-trip witness data: a plain task with a text extra. -/
def spPlain : TaskSpec :=
  ⟨.zadanie, "Zakupy", "mleko", ⟨2025, 5, 15⟩, "x", false, [("kategoria", .str "Dom")]⟩

/-- Round-trip witness data: a prioritized, completed task with a boolean
extra and a leap-day due date. -/
def spPrio : TaskSpec :=
  ⟨.piorytetowe, "Raport", "kwartalny", ⟨2024, 2, 29⟩, "Wysoki", true, [("tagi", .bool true)]⟩

/-- Round-trip witness data: a recurring task. -/
def spReg : TaskSpec :=
  ⟨.regularne, "Backup", "", ⟨2023, 12, 31⟩, "codziennie", false, []⟩

/-- A manager content spanning all three kinds with a mix of values. -/
def specs3 : List TaskSpec := [spPlain, spPrio, spReg]

/-- A task constructed without a due date. -/
def objNoDate : PyObj := mkZadanie "t" "" .noneArg []

/-- A task whose extra value is the text `"True"`. -/
def objTextTrue : PyObj := mkZadanie "t" "" (.date ⟨2020, 1, 5⟩) [("note", PyVal.str "True")]

/-- A task whose title contains a newline. -/
def objNewline : PyObj := mkZadanie "a\nb" "" (.date ⟨2020, 1, 5⟩) []

/-- A heap holding one object. -/
def st1 (z : PyObj) : PyState := ⟨[z]⟩

/-- A manager owning the single object of identity 0. -/
def m1 : ManagerZadan := ⟨"/base", [0]⟩

/-- A manager owning no tasks. -/
def m0 : ManagerZadan := ⟨"/base", []⟩

/-- The empty heap. -/
def st0 : PyState := ⟨[]⟩

/-- A manager whose base directory is a nested absolute path, used for the
path-traversal analysis. -/
def mTrav : ManagerZadan := ⟨"/home/user/app", []⟩

/-- Heap of the sorting counterexample: an undated task added before a task
dated exactly `datetime.max.date()`. -/
def stSort : PyState :=
  ⟨[mkZadanie "a" "" .noneArg [], mkZadanie "b" "" (.date maxDate) []]⟩

/-- Heap of the sorting witness: dated, undated and tied tasks. -/
def stSortW : PyState :=
  ⟨[mkZadanie "a" "" (.date ⟨2025, 6, 1⟩) [], mkZadanie "b" "" .noneArg [],
    mkZadanie "c" "" (.date ⟨2025, 6, 1⟩) [], mkZadanie "d" "" (.date ⟨2024, 1, 1⟩) []]⟩

/-- A well-formed single-record file content for the load witness. -/
def c5content : String := "Zadanie;x;;2021-03-04;wykonane=False\n"

/-- The task that loading `c5content` reconstructs. -/
def objLoaded : PyObj := mkZadanie "x" "" (.date ⟨2021, 3, 4⟩) [("wykonane", PyVal.bool false)]

theorem hasattr_nil (k : String) : hasattr [] k = false := rfl

theorem hasattr_cons (p : String × PyVal) (d : Dict) (k : String) :
    hasattr (p :: d) k = (p.1 == k || hasattr d k) := by
  simp [hasattr]

theorem hasattr_append (a b : Dict) (k : String) :
    hasattr (a ++ b) k = (hasattr a k || hasattr b k) := by
  simp [hasattr, List.any_append]

theorem hasattr_eq_false (d : Dict) (k : String) :
    hasattr d k = false ↔ ∀ p ∈ d, p.1 ≠ k := by
  simp [hasattr]

theorem getattr?_cons (p : String × PyVal) (d : Dict) (k : String) :
    getattr? (p :: d) k = if p.1 == k then some p.2 else getattr? d k := by
  by_cases h : (p.1 == k) = true <;> simp [getattr?, List.find?_cons, h]

theorem getattr?_of_hasattr_false (d : Dict) (k : String) (h : hasattr d k = false) :
    getattr? d k = none := by
  induction d with
  | nil => rfl
  | cons p d ih =>
    rw [hasattr_cons, Bool.or_eq_false_iff] at h
    rw [getattr?_cons, if_neg (by simp [h.1]), ih h.2]

theorem getattr?_append (a b : Dict) (k : String) :
    getattr? (a ++ b) k = (getattr? a k).orElse (fun _ => getattr? b k) := by
  induction a with
  | nil => simp [getattr?]
  | cons p a ih =>
    by_cases h : (p.1 == k) = true <;>
      simp [getattr?_cons, h, ih]

theorem getattr?_map_setattr (d : Dict) (k : String) (v : PyVal) (h : hasattr d k = true) :
    getattr? (d.map (fun p => if p.1 == k then (k, v) else p)) k = some v := by
  induction d with
  | nil => simp [hasattr] at h
  | cons p d ih =>
    rw [List.map_cons]
    by_cases hp : (p.1 == k) = true
    · rw [if_pos hp, getattr?_cons]
      simp
    · rw [if_neg hp, getattr?_cons, if_neg (by simp [hp])]
      rw [hasattr_cons, Bool.or_eq_true] at h
      exact ih (h.resolve_left (by simp [hp]))

theorem getattr?_map_setattr_ne (d : Dict) (k k' : String) (v : PyVal) (h : k' ≠ k) :
    getattr? (d.map (fun p => if p.1 == k then (k, v) else p)) k' = getattr? d k' := by
  induction d with
  | nil => rfl
  | cons p d ih =>
    rw [List.map_cons]
    by_cases hp : (p.1 == k) = true
    · have hpk : p.1 = k := by simpa using hp
      rw [if_pos hp, getattr?_cons, getattr?_cons,
        if_neg (by simp [Ne.symm h]), if_neg (by simp [hpk, Ne.symm h]), ih]
    · rw [if_neg hp, getattr?_cons, getattr?_cons, ih]

theorem getattr?_setattr_self (d : Dict) (k : String) (v : PyVal) :
    getattr? (setattr d k v) k = some v := by
  unfold setattr
  by_cases h : hasattr d k
  · rw [if_pos h]
    exact getattr?_map_setattr d k v h
  · rw [if_neg h, getattr?_append,
      getattr?_of_hasattr_false d k (by simpa using h)]
    simp [getattr?_cons]

theorem getattr?_setattr_ne (d : Dict) (k k' : String) (v : PyVal) (h : k' ≠ k) :
    getattr? (setattr d k v) k' = getattr? d k' := by
  unfold setattr
  by_cases hh : hasattr d k
  · rw [if_pos hh]
    exact getattr?_map_setattr_ne d k k' v h
  · rw [if_neg hh, getattr?_append]
    have h1 : getattr? [(k, v)] k' = none := by
      rw [getattr?_cons, if_neg (by simp [Ne.symm h])]
      rfl
    rw [h1]
    cases getattr? d k' <;> rfl

theorem setattr_absent (d : Dict) (k : String) (v : PyVal) (h : hasattr d k = false) :
    setattr d k v = d ++ [(k, v)] := by
  simp [setattr, h]

theorem setattrs_nil (d : Dict) : setattrs d [] = d := rfl

theorem setattrs_cons (d : Dict) (p : String × PyVal) (kw : Dict) :
    setattrs d (p :: kw) = setattrs (setattr d p.1 p.2) kw := rfl

theorem setattrs_append (d : Dict) (kw₁ kw₂ : Dict) :
    setattrs d (kw₁ ++ kw₂) = setattrs (setattrs d kw₁) kw₂ := by
  simp [setattrs, List.foldl_append]

theorem setattrs_disjoint (kw : Dict) : ∀ d : Dict,
    (∀ p ∈ kw, hasattr d p.1 = false) → (kw.map Prod.fst).Nodup →
    setattrs d kw = d ++ kw := by
  induction kw with
  | nil => intro d _ _; simp [setattrs_nil]
  | cons p kw ih =>
    intro d hdis hnd
    rw [setattrs_cons, setattr_absent d p.1 p.2 (hdis p (by simp))]
    rw [List.map_cons, List.nodup_cons] at hnd
    rw [ih (d ++ [p]) ?_ hnd.2]
    · simp
    · intro q hq
      rw [hasattr_append, Bool.or_eq_false_iff]
      refine ⟨hdis q (by simp [hq]), ?_⟩
      have hqp : q.1 ≠ p.1 := by
        intro hqp
        exact hnd.1 (hqp ▸ List.mem_map_of_mem Prod.fst hq)
      simp [hasattr]
      exact Ne.symm hqp

theorem setattr_append_left (a b : Dict) (k : String) (v : PyVal)
    (ha : hasattr a k = true) (hb : ∀ p ∈ b, p.1 ≠ k) :
    setattr (a ++ b) k v = setattr a k v ++ b := by
  have hab : hasattr (a ++ b) k = true := by
    rw [hasattr_append, ha, Bool.true_or]
  rw [setattr, if_pos hab, setattr, if_pos ha, List.map_append]
  congr 1
  have hcongr : ∀ p ∈ b, (if p.1 == k then (k, v) else p) = p := by
    intro p hp
    rw [if_neg (by simp [hb p hp])]
  rw [List.map_congr_left hcongr]
  simp

theorem splitChars_ne_nil (sep : Char) (l : List Char) : splitChars sep l ≠ [] := by
  induction l with
  | nil => simp [splitChars]
  | cons c cs ih =>
    unfold splitChars
    cases h : splitChars sep cs with
    | nil => simp
    | cons hd tl => by_cases hc : c = sep <;> simp [hc]

theorem splitChars_sepFree (sep : Char) (l : List Char) (h : sep ∉ l) :
    splitChars sep l = [l] := by
  induction l with
  | nil => rfl
  | cons c cs ih =>
    have hc : c ≠ sep := fun hh => h (hh ▸ List.mem_cons_self c cs)
    have hcs : sep ∉ cs := fun hh => h (List.mem_cons_of_mem c hh)
    unfold splitChars
    rw [ih hcs]
    simp [hc]

theorem splitChars_cons_eq (sep c : Char) (cs : List Char) :
    splitChars sep (c :: cs) =
      match splitChars sep cs with
      | [] => [[]]
      | h :: t => if c = sep then [] :: h :: t else (c :: h) :: t := rfl

theorem splitChars_append_sep (sep : Char) (a t : List Char) (h : sep ∉ a) :
    splitChars sep (a ++ sep :: t) = a :: splitChars sep t := by
  induction a with
  | nil =>
    simp only [List.nil_append]
    rw [splitChars_cons_eq]
    cases hq : splitChars sep t with
    | nil => exact absurd hq (splitChars_ne_nil sep t)
    | cons hd tl => simp
  | cons c cs ih =>
    have hc : c ≠ sep := fun hh => h (hh ▸ List.mem_cons_self c cs)
    have hcs : sep ∉ cs := fun hh => h (List.mem_cons_of_mem c hh)
    simp only [List.cons_append]
    rw [splitChars_cons_eq, ih hcs]
    simp [hc]

theorem joinChars_cons (sep : Char) (a b : List Char) (rest : List (List Char)) :
    joinChars sep (a :: b :: rest) = a ++ sep :: joinChars sep (b :: rest) := rfl

theorem splitChars_joinChars (sep : Char) (parts : List (List Char)) (hne : parts ≠ [])
    (h : ∀ p ∈ parts, sep ∉ p) : splitChars sep (joinChars sep parts) = parts := by
  induction parts with
  | nil => exact absurd rfl hne
  | cons a rest ih =>
    cases rest with
    | nil => exact splitChars_sepFree sep a (h a (by simp))
    | cons b rest' =>
      rw [joinChars_cons, splitChars_append_sep sep a _ (h a (by simp)),
        ih (by simp) (fun p hp => h p (by simp [hp]))]

theorem splitFirst_eq (sep : Char) (k v : List Char) (h : sep ∉ k) :
    splitFirst sep (k ++ sep :: v) = some (k, v) := by
  induction k with
  | nil => simp [splitFirst]
  | cons c cs ih =>
    have hc : c ≠ sep := fun hh => h (hh ▸ List.mem_cons_self c cs)
    have hcs : sep ∉ cs := fun hh => h (List.mem_cons_of_mem c hh)
    simp only [List.cons_append]
    unfold splitFirst
    rw [if_neg hc, ih hcs]

theorem dropWhile_eq_self_of_head (p : Char → Bool) (l : List Char)
    (h : ∀ c, l.head? = some c → p c = false) : l.dropWhile p = l := by
  cases l with
  | nil => rfl
  | cons c cs =>
    rw [List.dropWhile_cons]
    simp [h c rfl]

theorem stripChars_eq_self (l : List Char)
    (hh : ∀ c, l.head? = some c → isSpaceC c = false)
    (hl : ∀ c, l.getLast? = some c → isSpaceC c = false) :
    stripChars l = l := by
  unfold stripChars
  rw [dropWhile_eq_self_of_head _ l hh,
    dropWhile_eq_self_of_head _ l.reverse
      (fun c hc => hl c (by rwa [List.head?_reverse] at hc)),
    List.reverse_reverse]

theorem head?_joinChars (sep : Char) (a : List Char) (rest : List (List Char)) (ha : a ≠ []) :
    (joinChars sep (a :: rest)).head? = a.head? := by
  cases rest with
  | nil => rfl
  | cons b rest' =>
    rw [joinChars_cons]
    cases a with
    | nil => exact absurd rfl ha
    | cons c cs => rfl

theorem joinChars_concat_ne_nil (sep : Char) (front : List (List Char)) (a : List Char)
    (ha : a ≠ []) : joinChars sep (front ++ [a]) ≠ [] := by
  cases front with
  | nil => simpa using ha
  | cons x front' =>
    rw [List.cons_append]
    cases hfa : front' ++ [a] with
    | nil => simp at hfa
    | cons y ys =>
      rw [joinChars_cons]
      simp

theorem getLast?_joinChars (sep : Char) (front : List (List Char)) (a : List Char)
    (ha : a ≠ []) : (joinChars sep (front ++ [a])).getLast? = a.getLast? := by
  induction front with
  | nil => rfl
  | cons x front' ih =>
    have h1 : joinChars sep ((x :: front') ++ [a])
        = x ++ sep :: joinChars sep (front' ++ [a]) := by
      rw [List.cons_append]
      cases hfa : front' ++ [a] with
      | nil => simp at hfa
      | cons y ys => rw [joinChars_cons, ← hfa]
    have h2 : joinChars sep (front' ++ [a]) ≠ [] := joinChars_concat_ne_nil sep front' a ha
    rw [h1]
    cases hJ : (joinChars sep (front' ++ [a])).getLast? with
    | none => exact absurd (List.getLast?_eq_none_iff.mp hJ) h2
    | some c =>
      rw [List.getLast?_append,
        show (sep :: joinChars sep (front' ++ [a]))
          = [sep] ++ joinChars sep (front' ++ [a]) from rfl,
        List.getLast?_append, hJ, ← ih, hJ]
      rfl

theorem mem_joinChars (sep : Char) (c : Char) : ∀ parts : List (List Char),
    c ∈ joinChars sep parts → c = sep ∨ ∃ p ∈ parts, c ∈ p := by
  intro parts
  induction parts with
  | nil => simp [joinChars]
  | cons a rest ih =>
    cases rest with
    | nil => intro h; exact Or.inr ⟨a, by simp, h⟩
    | cons b r' =>
      rw [joinChars_cons]
      intro h
      rcases List.mem_append.mp h with h1 | h2
      · exact Or.inr ⟨a, by simp, h1⟩
      · rcases List.mem_cons.mp h2 with rfl | h3
        · exact Or.inl rfl
        · rcases ih h3 with h4 | ⟨p, hp, hcp⟩
          · exact Or.inl h4
          · exact Or.inr ⟨p, by simp [hp], hcp⟩

theorem digitChar_isDigit (d : Nat) : (digitChar d).isDigit = true := by
  unfold digitChar
  split <;> decide

theorem digitVal_digitChar (d : Nat) (h : d < 10) : digitVal (digitChar d) = d := by
  interval_cases d <;> decide

theorem allDigits_mem (l : List Char) (h : allDigits l = true) (c : Char) (hc : c ∈ l) :
    c.isDigit = true := by
  rw [allDigits, List.all_eq_true] at h
  exact h c hc

theorem not_mem_of_digits (l : List Char) (h : allDigits l = true) (c : Char)
    (hc : c.isDigit = false) : c ∉ l := by
  intro hm
  have := allDigits_mem l h c hm
  rw [hc] at this
  exact Bool.noConfusion this

theorem natDigitsAux_succ (f m : Nat) :
    natDigitsAux (f + 1) (m + 1) = natDigitsAux f ((m + 1) / 10) ++ [digitChar ((m + 1) % 10)] := rfl

theorem natDigitsAux_allDigits (fuel : Nat) : ∀ n, allDigits (natDigitsAux fuel n) = true := by
  induction fuel with
  | zero => intro n; rfl
  | succ f ih =>
    intro n
    cases n with
    | zero => rfl
    | succ m =>
      rw [natDigitsAux_succ, allDigits, List.all_append]
      have h1 : allDigits (natDigitsAux f ((m + 1) / 10)) = true := ih _
      rw [allDigits] at h1
      rw [h1]
      simp [digitChar_isDigit]

theorem natDigitsAux_foldl (fuel : Nat) : ∀ n, n ≤ fuel → ∀ acc : Nat,
    (natDigitsAux fuel n).foldl (fun a c => a * 10 + digitVal c) acc
      = acc * 10 ^ (natDigitsAux fuel n).length + n := by
  induction fuel with
  | zero =>
    intro n hn acc
    interval_cases n
    simp [natDigitsAux]
  | succ f ih =>
    intro n hn acc
    cases n with
    | zero => simp [natDigitsAux]
    | succ m =>
      have hdiv : (m + 1) / 10 ≤ f := by omega
      rw [natDigitsAux_succ, List.foldl_append, ih _ hdiv acc, List.length_append]
      simp only [List.foldl_cons, List.foldl_nil, List.length_cons, List.length_nil]
      rw [digitVal_digitChar _ (by omega)]
      rw [pow_succ, Nat.add_mul, ← Nat.mul_assoc, Nat.add_assoc]
      congr 1
      omega

theorem natDigitsAux_length_le (fuel : Nat) : ∀ n k, n ≤ fuel → n < 10 ^ k →
    (natDigitsAux fuel n).length ≤ k := by
  induction fuel with
  | zero =>
    intro n k hn _
    interval_cases n
    simp [natDigitsAux]
  | succ f ih =>
    intro n k hn hk
    cases n with
    | zero => simp [natDigitsAux]
    | succ m =>
      cases k with
      | zero => simp at hk
      | succ k' =>
        have hdiv : (m + 1) / 10 ≤ f := by omega
        have hdivk : (m + 1) / 10 < 10 ^ k' := by
          rw [pow_succ] at hk
          generalize hP : (10 : Nat) ^ k' = P at *
          omega
        rw [natDigitsAux_succ, List.length_append]
        have := ih _ k' hdiv hdivk
        simp only [List.length_cons, List.length_nil]
        omega

theorem digitsToNat_natToDec (n : Nat) : digitsToNat (natToDec n) = n := by
  unfold natToDec
  by_cases h : n = 0
  · subst h; decide
  · rw [if_neg (by simpa using h)]
    have := natDigitsAux_foldl n n le_rfl 0
    unfold digitsToNat
    rw [this]
    simp

theorem natToDec_allDigits (n : Nat) : allDigits (natToDec n) = true := by
  unfold natToDec
  by_cases h : n = 0
  · subst h; decide
  · rw [if_neg (by simpa using h)]
    exact natDigitsAux_allDigits n n

theorem natToDec_length_le (n k : Nat) (h : n < 10 ^ k) (hk : 1 ≤ k) :
    (natToDec n).length ≤ k := by
  unfold natToDec
  by_cases h0 : n = 0
  · subst h0; simpa using hk
  · rw [if_neg (by simpa using h0)]
    exact natDigitsAux_length_le n n k le_rfl h

theorem padLeft_allDigits (w : Nat) (l : List Char) (h : allDigits l = true) :
    allDigits (padLeft w l) = true := by
  rw [padLeft, allDigits, List.all_append]
  rw [allDigits] at h
  rw [h, Bool.and_true, List.all_eq_true]
  intro c hc
  rw [List.eq_of_mem_replicate hc]
  decide

theorem padLeft_length (w : Nat) (l : List Char) (h : l.length ≤ w) :
    (padLeft w l).length = w := by
  rw [padLeft, List.length_append, List.length_replicate]
  omega

theorem digitsToNat_padLeft (w : Nat) (l : List Char) :
    digitsToNat (padLeft w l) = digitsToNat l := by
  rw [padLeft, digitsToNat, List.foldl_append]
  congr 1
  induction (w - l.length) with
  | zero => rfl
  | succ k ih =>
    rw [List.replicate_succ, List.foldl_cons]
    simpa [digitVal] using ih

theorem parseYMD_renderDate (dt : Date) (h : dt.Valid) :
    parseYMD (String.mk (renderDateChars dt)) = some dt := by
  obtain ⟨y, m, d⟩ := dt
  obtain ⟨h1, h2, h3, h4, h5, h6⟩ := h
  dsimp only at h1 h2 h3 h4 h5 h6
  have hY : allDigits (padLeft 4 (natToDec y)) = true :=
    padLeft_allDigits _ _ (natToDec_allDigits _)
  have hM : allDigits (padLeft 2 (natToDec m)) = true :=
    padLeft_allDigits _ _ (natToDec_allDigits _)
  have hD : allDigits (padLeft 2 (natToDec d)) = true :=
    padLeft_allDigits _ _ (natToDec_allDigits _)
  have hp4 : (10 : Nat) ^ 4 = 10000 := by norm_num
  have hp2 : (10 : Nat) ^ 2 = 100 := by norm_num
  have hYl : (padLeft 4 (natToDec y)).length = 4 :=
    padLeft_length _ _ (natToDec_length_le y 4 (by omega) (by omega))
  have hMl : (padLeft 2 (natToDec m)).length = 2 :=
    padLeft_length _ _ (natToDec_length_le m 2 (by omega) (by omega))
  have hDl : (padLeft 2 (natToDec d)).length = 2 := by
    have hd100 : d < 100 := by
      have : daysInMonth y m ≤ 31 := by
        rw [daysInMonth]
        split
        · split <;> omega
        · split <;> omega
      omega
    exact padLeft_length _ _ (natToDec_length_le d 2 (by omega) (by omega))
  have hsplit : splitChars '-' (renderDateChars ⟨y, m, d⟩)
      = [padLeft 4 (natToDec y), padLeft 2 (natToDec m), padLeft 2 (natToDec d)] := by
    rw [renderDateChars]
    have e1 : padLeft 4 (natToDec y) ++ ['-'] ++ padLeft 2 (natToDec m) ++ ['-']
        ++ padLeft 2 (natToDec d)
        = padLeft 4 (natToDec y)
          ++ '-' :: (padLeft 2 (natToDec m) ++ '-' :: padLeft 2 (natToDec d)) := by
      simp
    rw [e1, splitChars_append_sep _ _ _ (not_mem_of_digits _ hY '-' (by decide)),
      splitChars_append_sep _ _ _ (not_mem_of_digits _ hM '-' (by decide)),
      splitChars_sepFree _ _ (not_mem_of_digits _ hD '-' (by decide))]
  have htl : (String.mk (renderDateChars ⟨y, m, d⟩)).toList = renderDateChars ⟨y, m, d⟩ := rfl
  rw [parseYMD, htl, hsplit]
  simp only [hY, hM, hD, hYl, hMl, hDl]
  have hvals : (⟨digitsToNat (padLeft 4 (natToDec y)), digitsToNat (padLeft 2 (natToDec m)),
      digitsToNat (padLeft 2 (natToDec d))⟩ : Date) = ⟨y, m, d⟩ := by
    rw [digitsToNat_padLeft, digitsToNat_padLeft, digitsToNat_padLeft,
      digitsToNat_natToDec, digitsToNat_natToDec, digitsToNat_natToDec]
  rw [if_pos (by simp), hvals, if_pos ⟨h1, h2, h3, h4, h5, h6⟩]

theorem lastVal_nil (k : String) : lastVal [] k = none := rfl

theorem lastVal_append (kw₁ kw₂ : Dict) (k : String) :
    lastVal (kw₁ ++ kw₂) k = (lastVal kw₂ k).orElse (fun _ => lastVal kw₁ k) := by
  unfold lastVal
  rw [List.reverse_append, List.find?_append]
  cases kw₂.reverse.find? (fun p => p.1 == k) <;> simp

theorem lastVal_single (p : String × PyVal) (k : String) :
    lastVal [p] k = if p.1 == k then some p.2 else none := by
  by_cases hp : (p.1 == k) = true <;> simp [lastVal, List.find?, hp]

theorem lastVal_eq_none (kw : Dict) (k : String) (h : ∀ p ∈ kw, p.1 ≠ k) :
    lastVal kw k = none := by
  unfold lastVal
  rw [List.find?_eq_none.mpr]
  · rfl
  · intro p hp
    simpa using h p (List.mem_reverse.mp hp)

theorem getattr?_setattrs (kw : Dict) : ∀ (d : Dict) (k : String),
    getattr? (setattrs d kw) k = (lastVal kw k).orElse (fun _ => getattr? d k) := by
  induction kw with
  | nil => intro d k; simp [setattrs_nil, lastVal_nil]
  | cons p kw ih =>
    intro d k
    rw [setattrs_cons, ih]
    have hsplit : lastVal (p :: kw) k = (lastVal kw k).orElse (fun _ => lastVal [p] k) := by
      simpa using lastVal_append [p] kw k
    rw [hsplit]
    cases hk : lastVal kw k with
    | some v => simp
    | none =>
      show getattr? (setattr d p.1 p.2) k
        = Option.orElse (lastVal [p] k) fun _ => getattr? d k
      by_cases hp : (p.1 == k) = true
      · have hpk : p.1 = k := by simpa using hp
        rw [lastVal_single, if_pos hp,
          show setattr d p.1 p.2 = setattr d k p.2 from by rw [hpk],
          getattr?_setattr_self]
        rfl
      · have hne : k ≠ p.1 := fun hkp => hp (by simp [hkp])
        rw [lastVal_single, if_neg hp, getattr?_setattr_ne d p.1 k p.2 hne]
        rfl

theorem getattr?_setattrs_ne (kw : Dict) (d : Dict) (k : String)
    (h : ∀ p ∈ kw, p.1 ≠ k) :
    getattr? (setattrs d kw) k = getattr? d k := by
  rw [getattr?_setattrs, lastVal_eq_none kw k h]
  rfl

/-- C3 counterexample: constructing a base task with `wykonane = True` in the
extra-attributes map yields a task whose done flag is already true — the
keyword loop of `Zadanie.__init__` runs after `self.wykonane = False` and
overwrites it, so the flag does not initialize to false regardless of the
extras, and a persisted flag takes effect without any post-construction step. -/
theorem C3_counterexample :
    getattr? (mkZadanie "t" "" TerminArg.noneArg [("wykonane", PyVal.bool true)]).dict
      "wykonane" = some (PyVal.bool true) := by decide

/-- C3 (amended): in every task construction the done flag is first set to
false and the extra-attributes map is then applied on top of it, so the
resulting `wykonane` is the last `"wykonane"` binding of the extras when one
exists and false otherwise; a persisted completion flag therefore already
takes effect through the constructor, and the explicit post-construction
assignment of the loader is redundant. -/
theorem C3_amended_done_init (tytul opis : String) (termin : TerminArg)
    (kwargs : Dict) (priorytet powtarzalnosc : PyVal) :
    getattr? (mkZadanie tytul opis termin kwargs).dict "wykonane"
        = (lastVal kwargs "wykonane").orElse (fun _ => some (PyVal.bool false))
    ∧ getattr? (mkZadaniePiorytetowe tytul opis termin priorytet kwargs).dict "wykonane"
        = (lastVal kwargs "wykonane").orElse (fun _ => some (PyVal.bool false))
    ∧ getattr? (mkZadanieRegularne tytul opis termin powtarzalnosc kwargs).dict "wykonane"
        = (lastVal kwargs "wykonane").orElse (fun _ => some (PyVal.bool false)) := by
  have hbase : getattr? (mkZadanie tytul opis termin kwargs).dict "wykonane"
      = (lastVal kwargs "wykonane").orElse (fun _ => some (PyVal.bool false)) := by
    rw [mkZadanie]
    rw [getattr?_setattrs]
    rfl
  refine ⟨hbase, ?_, ?_⟩
  · rw [mkZadaniePiorytetowe]
    rw [getattr?_setattr_ne _ _ _ _ (by decide)]
    exact hbase
  · rw [mkZadanieRegularne]
    rw [getattr?_setattr_ne _ _ _ _ (by decide)]
    exact hbase

theorem hasattr_of_getattr?_some (d : Dict) (k : String) (v : PyVal)
    (h : getattr? d k = some v) : hasattr d k = true := by
  by_cases hx : hasattr d k
  · exact hx
  · rw [getattr?_of_hasattr_false d k (by simpa using hx)] at h
    exact absurd h (by simp)

theorem map_setattr_id (k : String) (v : PyVal) : ∀ d : Dict,
    (d.map Prod.fst).Nodup → getattr? d k = some v →
    d.map (fun p => if p.1 == k then (k, v) else p) = d := by
  intro d
  induction d with
  | nil => intro _ h; simp [getattr?] at h
  | cons p d ih =>
    intro hnd h
    rw [List.map_cons, List.nodup_cons] at hnd
    rw [getattr?_cons] at h
    rw [List.map_cons]
    by_cases hp : (p.1 == k) = true
    · rw [if_pos hp] at h ⊢
      have hpk : p.1 = k := by simpa using hp
      have hv : v = p.2 := by
        injection h with h2
        exact h2.symm
      have htail : ∀ q ∈ d, (if q.1 == k then (k, v) else q) = q := by
        intro q hq
        rw [if_neg ?_]
        intro hqk
        have hq1 : q.1 = p.1 := by rw [hpk]; simpa using hqk
        exact hnd.1 (hq1 ▸ List.mem_map_of_mem Prod.fst hq)
      rw [List.map_congr_left htail]
      have hkv : (k, v) = p := by rw [hv, ← hpk]
      rw [hkv]
      simp
    · rw [if_neg hp] at h ⊢
      rw [ih hnd.2 h]

theorem setattr_self_eq (d : Dict) (k : String) (v : PyVal)
    (hnd : (d.map Prod.fst).Nodup) (h : getattr? d k = some v) :
    setattr d k v = d := by
  rw [setattr, if_pos (hasattr_of_getattr?_some d k v h)]
  exact map_setattr_id k v d hnd h

theorem setattr_setattr (d : Dict) (k : String) (v v' : PyVal) :
    setattr (setattr d k v) k v' = setattr d k v' := by
  by_cases h : hasattr d k
  · have h2 : hasattr (setattr d k v) k = true :=
      hasattr_of_getattr?_some _ _ _ (getattr?_setattr_self d k v)
    rw [setattr, if_pos h2, setattr, if_pos h, setattr, if_pos h, List.map_map]
    apply List.map_congr_left
    intro p _
    by_cases hp : p.1 = k
    · simp [hp]
    · simp [hp]
  · have hb : hasattr d k = false := by simpa using h
    have h2 : hasattr (d ++ [(k, v)]) k = true := by
      rw [hasattr_append]
      simp [hasattr]
    rw [setattr_absent d k v hb, setattr, if_pos h2, setattr_absent d k v' hb,
      List.map_append]
    congr 1
    · have hmap : ∀ p ∈ d, (if p.1 == k then (k, v') else p) = p := by
        intro p hp
        rw [if_neg ?_]
        intro hpk
        have htrue : hasattr d k = true := by
          rw [hasattr]
          exact List.any_eq_true.mpr ⟨p, hp, hpk⟩
        rw [htrue] at hb
        exact Bool.noConfusion hb
      rw [List.map_congr_left hmap]
      simp
    · simp

/-- C9: `Zadanie.wykonany` toggles the completion flag: a single call flips
`wykonane` and changes no other attribute, and two calls restore the
original `__dict__` exactly. -/
theorem C9_toggle_involution (d : Dict) (b : Bool)
    (hnd : (d.map Prod.fst).Nodup) (h : getattr? d "wykonane" = some (PyVal.bool b)) :
    wykonany (wykonany d) = d
    ∧ getattr? (wykonany d) "wykonane" = some (PyVal.bool (!b))
    ∧ ∀ k, k ≠ "wykonane" → getattr? (wykonany d) k = getattr? d k := by
  have h1 : wykonany d = setattr d "wykonane" (PyVal.bool (!b)) := by
    rw [wykonany, h]
    rfl
  refine ⟨?_, ?_, ?_⟩
  · rw [h1, wykonany, getattr?_setattr_self]
    have hpt : (!(pyTruthy ((some (PyVal.bool (!b))).getD PyVal.none))) = b := by
      cases b <;> rfl
    rw [hpt, setattr_setattr]
    exact setattr_self_eq d "wykonane" (PyVal.bool b) hnd h
  · rw [h1, getattr?_setattr_self]
  · intro k hk
    rw [h1, getattr?_setattr_ne d "wykonane" k _ hk]

/-- Witness for C9 at a freshly constructed task (done flag false, unique
attribute names). -/
theorem C9_toggle_involution_witness :
    ((((mkZadanie "t" "" TerminArg.noneArg []).dict.map Prod.fst).Nodup)
      ∧ getattr? (mkZadanie "t" "" TerminArg.noneArg []).dict "wykonane"
          = some (PyVal.bool false))
    ∧ wykonany (wykonany (mkZadanie "t" "" TerminArg.noneArg []).dict)
        = (mkZadanie "t" "" TerminArg.noneArg []).dict := by
  refine ⟨⟨by decide, by decide⟩, ?_⟩
  exact (C9_toggle_involution (mkZadanie "t" "" TerminArg.noneArg []).dict false
    (by decide) (by decide)).1

theorem attrOf_eq_getD (st : PyState) (i : Nat) (k : String) :
    attrOf st i k = (getattr? ((st.objs[i]?).getD defaultObj).dict k).getD PyVal.none := by
  unfold attrOf
  cases st.objs[i]? <;> rfl

theorem attrOf_updateObj_self (st : PyState) (i : Nat) (f : PyObj → PyObj) (k : String)
    (hi : i < st.objs.length) :
    attrOf (updateObj st i f) i k
      = (getattr? (f ((st.objs[i]?).getD defaultObj)).dict k).getD PyVal.none := by
  unfold attrOf updateObj
  rw [List.getElem?_set]
  simp [hi]

theorem edytuj_dict_getattr_unchanged (d : Dict) (nowy_termin : Option Date) (kwargs : Dict)
    (k : String) (hk : ∀ p ∈ kwargs, p.1 ≠ k) (hterm : k ≠ "termin_wykonaia") :
    getattr? (setattrs (match nowy_termin with
      | some dt => setattr d "termin_wykonaia" (PyVal.date dt)
      | none => d) kwargs) k = getattr? d k := by
  rw [getattr?_setattrs_ne kwargs _ k hk]
  cases nowy_termin with
  | none => rfl
  | some dt => rw [getattr?_setattr_ne _ _ _ _ hterm]

/-- C8: `edytuj_zadanie` is guarded by `if zadanie in self.zadania`, so on a
task that is not a member of the manager's collection it performs no mutation
at all, whatever new title, description, due date or keyword attributes are
supplied. -/
theorem C8_edit_nonmember_no_mutation (st : PyState) (m : ManagerZadan) (i : Nat)
    (nowy_tytul nowy_opis : Option String) (nowy_termin : Option Date) (kwargs : Dict)
    (h : i ∉ m.zadania) :
    edytuj_zadanie st m i nowy_tytul nowy_opis nowy_termin kwargs = st := by
  rw [edytuj_zadanie, if_neg h]

/-- Witness for C8: editing a task identity outside the collection changes
nothing. -/
theorem C8_edit_nonmember_no_mutation_witness :
    (5 ∉ m1.zadania)
    ∧ edytuj_zadanie (st1 objNoDate) m1 5 (some "X") (some "Y") (some ⟨2030, 1, 1⟩)
        [("wykonane", PyVal.bool true)] = st1 objNoDate :=
  ⟨by decide, C8_edit_nonmember_no_mutation _ _ _ _ _ _ _ (by decide)⟩

/-- C7: for a member task, an empty string passed as the new title or the new
description is falsy and means "no change": the stored field keeps its value
(the keyword arguments of the call are assumed not to target these fields). -/
theorem C7_edit_empty_no_change (st : PyState) (m : ManagerZadan) (i : Nat)
    (nowy_termin : Option Date) (kwargs : Dict)
    (hmem : i ∈ m.zadania) (hi : i < st.objs.length)
    (hk1 : ∀ p ∈ kwargs, p.1 ≠ "tytul") (hk2 : ∀ p ∈ kwargs, p.1 ≠ "opis") :
    attrOf (edytuj_zadanie st m i (some "") (some "") nowy_termin kwargs) i "tytul"
        = attrOf st i "tytul"
    ∧ attrOf (edytuj_zadanie st m i (some "") (some "") nowy_termin kwargs) i "opis"
        = attrOf st i "opis" := by
  constructor
  · rw [edytuj_zadanie, if_pos hmem, attrOf_updateObj_self _ _ _ _ hi, attrOf_eq_getD]
    congr 1
    exact edytuj_dict_getattr_unchanged _ nowy_termin kwargs "tytul" hk1 (by decide)
  · rw [edytuj_zadanie, if_pos hmem, attrOf_updateObj_self _ _ _ _ hi, attrOf_eq_getD]
    congr 1
    exact edytuj_dict_getattr_unchanged _ nowy_termin kwargs "opis" hk2 (by decide)

/-- Witness for C7 on a concrete member task. -/
theorem C7_edit_empty_no_change_witness :
    (0 ∈ m1.zadania)
    ∧ attrOf (edytuj_zadanie (st1 objNoDate) m1 0 (some "") (some "") none []) 0 "tytul"
        = attrOf (st1 objNoDate) 0 "tytul" :=
  ⟨by decide, (C7_edit_empty_no_change (st1 objNoDate) m1 0 none [] (by decide) (by decide)
    (by simp) (by simp)).1⟩

/-- C10: for a member task, `edytuj_zadanie` applies each keyword argument by
direct `setattr` with no reserved-name filtering, so a keyword naming a core
attribute (`wykonane`, `tytul`, `opis`, `termin_wykonaia`) overwrites that
core field, and no other attribute changes. -/
theorem C10_edit_kwargs_setattr (st : PyState) (m : ManagerZadan) (i : Nat)
    (k : String) (v : PyVal)
    (hmem : i ∈ m.zadania) (hi : i < st.objs.length) :
    attrOf (edytuj_zadanie st m i none none none [(k, v)]) i k = v
    ∧ ∀ k', k' ≠ k →
      attrOf (edytuj_zadanie st m i none none none [(k, v)]) i k' = attrOf st i k' := by
  constructor
  · rw [edytuj_zadanie, if_pos hmem, attrOf_updateObj_self _ _ _ _ hi]
    show (getattr? (setattr ((st.objs[i]?).getD defaultObj).dict k v) k).getD PyVal.none = v
    rw [getattr?_setattr_self]
    rfl
  · intro k' hk'
    rw [edytuj_zadanie, if_pos hmem, attrOf_updateObj_self _ _ _ _ hi, attrOf_eq_getD]
    congr 1
    show getattr? (setattr ((st.objs[i]?).getD defaultObj).dict k v) k'
      = getattr? ((st.objs[i]?).getD defaultObj).dict k'
    rw [getattr?_setattr_ne _ _ _ _ hk']

/-- Witness for C10: editing a member task with the keyword dict
`{"wykonane": True}` marks it done. -/
theorem C10_edit_kwargs_setattr_witness :
    ((0 ∈ m1.zadania) ∧ attrOf (st1 objNoDate) 0 "wykonane" = PyVal.bool false)
    ∧ attrOf (edytuj_zadanie (st1 objNoDate) m1 0 none none none
        [("wykonane", PyVal.bool true)]) 0 "wykonane" = PyVal.bool true :=
  ⟨⟨by decide, by decide⟩,
    (C10_edit_kwargs_setattr (st1 objNoDate) m1 0 "wykonane" (PyVal.bool true)
      (by decide) (by decide)).1⟩

/-- C4 counterexample: `oznacz_jako_wykonane` called with a task object that
is not a member of the manager's collection still sets that task's done flag
to true — the code uses the passed object without a membership check, so the
call is not a no-op and a task's done flag does change. -/
theorem C4_counterexample :
    (0 ∉ m0.zadania)
    ∧ attrOf (st1 objNoDate) 0 "wykonane" = PyVal.bool false
    ∧ attrOf (oznacz_jako_wykonane (st1 objNoDate) m0 (some 0) none) 0 "wykonane"
        = PyVal.bool true := by decide

/-- C4 (amended): `oznacz_jako_wykonane` given only an unknown title is a
silent no-op (no state change, no error), but given a task object it sets
that object's done flag to true directly, without any membership check —
even when the task is not in the manager's collection. -/
theorem C4_amended_markdone (st : PyState) (m : ManagerZadan) (t : String) (i : Nat)
    (ht : ∀ j ∈ m.zadania, pyEq (attrOf st j "tytul") (PyVal.str t) = false)
    (hi : i < st.objs.length) :
    oznacz_jako_wykonane st m none (some t) = st
    ∧ attrOf (oznacz_jako_wykonane st m (some i) none) i "wykonane" = PyVal.bool true := by
  constructor
  · have hfind : m.zadania.find? (fun j => pyEq (attrOf st j "tytul") (PyVal.str t))
        = none := by
      rw [List.find?_eq_none]
      intro j hj
      simpa using ht j hj
    simp only [oznacz_jako_wykonane, hfind]
  · show attrOf (updateObj st i
        (fun z => ⟨z.klasa, setattr z.dict "wykonane" (PyVal.bool true)⟩)) i "wykonane"
      = PyVal.bool true
    rw [attrOf_updateObj_self _ _ _ _ hi, getattr?_setattr_self]
    rfl

/-- Witness for C4 (amended) at a concrete state. -/
theorem C4_amended_markdone_witness :
    ((∀ j ∈ m1.zadania, pyEq (attrOf (st1 objNoDate) j "tytul") (PyVal.str "zzz") = false)
      ∧ 0 < (st1 objNoDate).objs.length)
    ∧ oznacz_jako_wykonane (st1 objNoDate) m1 none (some "zzz") = st1 objNoDate
    ∧ attrOf (oznacz_jako_wykonane (st1 objNoDate) m1 (some 0) none) 0 "wykonane"
        = PyVal.bool true := by
  refine ⟨⟨by decide, by decide⟩, ?_, ?_⟩
  · exact (C4_amended_markdone (st1 objNoDate) m1 "zzz" 0 (by decide) (by decide)).1
  · exact (C4_amended_markdone (st1 objNoDate) m1 "zzz" 0 (by decide) (by decide)).2

/-- C2 (code bug): the guard shared by `zapisz_do_pliku` and
`wczytaj_z_pliku` compares `os.path.commonpath` of the unnormalized joined
path with the base directory; for the traversal filename
`"../../etc/passwd"` the common path is the base directory itself, so no
error is raised and both operations proceed to open the file — although the
normalized resolved path lies outside the base directory, where the claim
(and the code's own error message) requires a path-traversal error before
any file is opened. -/
theorem C2_traversal_not_rejected :
    pathOk mTrav.save_dir "../../etc/passwd" = true
    ∧ zapisz_do_pliku st0 mTrav "../../etc/passwd"
        = Except.ok ("/home/user/app/../../etc/passwd", saveContent st0 mTrav)
    ∧ wczytaj_z_pliku st0 mTrav "../../etc/passwd" "" = (st0, mTrav, none)
    ∧ normPath (osJoin mTrav.save_dir "../../etc/passwd") = "/home/etc/passwd"
    ∧ commonpath2 mTrav.save_dir (normPath (osJoin mTrav.save_dir "../../etc/passwd"))
        ≠ mTrav.save_dir := by
  refine ⟨by decide, by rfl, by rfl, by decide, by decide⟩

theorem dateLe_refl (a : Date) : dateLe a a := by
  unfold dateLe
  omega

theorem dateLe_trans (a b c : Date) (h1 : dateLe a b) (h2 : dateLe b c) : dateLe a c := by
  unfold dateLe at *
  omega

theorem not_dateLt_iff (a b : Date) : ¬ dateLt a b ↔ dateLe b a := by
  unfold dateLt dateLe
  constructor
  · intro h
    by_contra hc
    exact h (by omega)
  · intro h hc
    exact hc h

theorem dateLt_of_not_le (a b : Date) (h : ¬ dateLe b a) : dateLt a b := h

theorem dateLe_of_dateLt (a b : Date) (h : dateLt a b) : dateLe a b := by
  unfold dateLt dateLe at *
  omega

theorem dateLt_irrefl (a : Date) : ¬ dateLt a a := by
  unfold dateLt dateLe
  omega

theorem dateLt_maxDate (dt : Date) (hv : dt.Valid) (hne : dt ≠ maxDate) :
    dateLt dt maxDate := by
  obtain ⟨y, m, d⟩ := dt
  obtain ⟨h1, h2, h3, h4, h5, h6⟩ := hv
  dsimp only at h1 h2 h3 h4 h5 h6
  have hd31 : d ≤ 31 := by
    have : daysInMonth y m ≤ 31 := by
      rw [daysInMonth]
      split
      · split <;> omega
      · split <;> omega
    omega
  have hne' : y ≠ 9999 ∨ m ≠ 12 ∨ d ≠ 31 := by
    by_contra hc
    push_neg at hc
    exact hne (by rw [maxDate, hc.1, hc.2.1, hc.2.2])
  unfold dateLt dateLe maxDate
  dsimp only
  omega

theorem insertByKey_perm (st : PyState) (i : Nat) (l : List Nat) :
    (insertByKey st i l).Perm (i :: l) := by
  induction l with
  | nil => simp [insertByKey]
  | cons j js ih =>
    rw [insertByKey]
    by_cases h : dateLt (keyDate st j) (keyDate st i)
    · rw [if_pos h]
      exact (ih.cons j).trans (List.Perm.swap i j js)
    · rw [if_neg h]

theorem sortowane_cons (st : PyState) (x : Nat) (xs : List Nat) :
    sortowane st (x :: xs) = insertByKey st x (sortowane st xs) := rfl

theorem sortowane_perm (st : PyState) (l : List Nat) : (sortowane st l).Perm l := by
  induction l with
  | nil => rfl
  | cons x xs ih =>
    rw [sortowane_cons]
    exact (insertByKey_perm st x _).trans (ih.cons x)

theorem insertByKey_pairwise (st : PyState) (i : Nat) (l : List Nat)
    (h : l.Pairwise (fun a b => dateLe (keyDate st a) (keyDate st b))) :
    (insertByKey st i l).Pairwise (fun a b => dateLe (keyDate st a) (keyDate st b)) := by
  induction l with
  | nil => simp [insertByKey]
  | cons j js ih =>
    rw [List.pairwise_cons] at h
    rw [insertByKey]
    by_cases hd : dateLt (keyDate st j) (keyDate st i)
    · rw [if_pos hd, List.pairwise_cons]
      constructor
      · intro b hb
        have hb2 : b ∈ i :: js := (insertByKey_perm st i js).mem_iff.mp hb
        rcases List.mem_cons.mp hb2 with rfl | hbjs
        · exact dateLe_of_dateLt _ _ hd
        · exact h.1 b hbjs
      · exact ih h.2
    · rw [if_neg hd, List.pairwise_cons]
      constructor
      · intro b hb
        rcases List.mem_cons.mp hb with rfl | hbjs
        · exact (not_dateLt_iff _ _).mp hd
        · exact dateLe_trans _ _ _ ((not_dateLt_iff _ _).mp hd) (h.1 b hbjs)
      · exact List.pairwise_cons.mpr ⟨h.1, h.2⟩

theorem sortowane_pairwise (st : PyState) (l : List Nat) :
    (sortowane st l).Pairwise (fun a b => dateLe (keyDate st a) (keyDate st b)) := by
  induction l with
  | nil => simp [sortowane]
  | cons x xs ih =>
    rw [sortowane_cons]
    exact insertByKey_pairwise st x _ ih

theorem insertByKey_filter_ne (st : PyState) (i : Nat) (l : List Nat) (kd : Date)
    (h : keyDate st i ≠ kd) :
    (insertByKey st i l).filter (fun j => decide (keyDate st j = kd))
      = l.filter (fun j => decide (keyDate st j = kd)) := by
  induction l with
  | nil => simp [insertByKey, h]
  | cons j js ih =>
    rw [insertByKey]
    by_cases hd : dateLt (keyDate st j) (keyDate st i)
    · rw [if_pos hd, List.filter_cons, List.filter_cons]
      by_cases hj : keyDate st j = kd <;> simp [hj, ih]
    · rw [if_neg hd, List.filter_cons]
      simp [h]

theorem insertByKey_filter_eq (st : PyState) (i : Nat) (l : List Nat) (kd : Date)
    (hi : keyDate st i = kd)
    (hsorted : l.Pairwise (fun a b => dateLe (keyDate st a) (keyDate st b))) :
    (insertByKey st i l).filter (fun j => decide (keyDate st j = kd))
      = i :: l.filter (fun j => decide (keyDate st j = kd)) := by
  induction l with
  | nil => simp [insertByKey, hi]
  | cons j js ih =>
    rw [List.pairwise_cons] at hsorted
    rw [insertByKey]
    by_cases hd : dateLt (keyDate st j) (keyDate st i)
    · rw [if_pos hd]
      have hjk : keyDate st j ≠ kd := by
        intro hjkd
        rw [hjkd, ← hi] at hd
        exact dateLt_irrefl _ hd
      rw [List.filter_cons]
      simp [hjk, ih hsorted.2]
    · rw [if_neg hd, List.filter_cons]
      simp [hi]

theorem sortowane_stable (st : PyState) (l : List Nat) (kd : Date) :
    (sortowane st l).filter (fun j => decide (keyDate st j = kd))
      = l.filter (fun j => decide (keyDate st j = kd)) := by
  induction l with
  | nil => rfl
  | cons x xs ih =>
    rw [sortowane_cons, List.filter_cons]
    by_cases hx : keyDate st x = kd
    · rw [insertByKey_filter_eq st x _ kd hx (sortowane_pairwise st xs), ih]
      simp [hx]
    · rw [insertByKey_filter_ne st x _ kd hx, ih]
      simp [hx]

/-- C6 counterexample: an undated task inserted before a task whose due date
is exactly `datetime.max.date()` keeps its place in the sorted view — the
undated task is not placed after every dated task, because a missing date is
replaced by that same maximum key before comparison. -/
theorem C6_counterexample :
    attrOf stSort 0 "termin_wykonaia" = PyVal.none
    ∧ attrOf stSort 1 "termin_wykonaia" = PyVal.date maxDate
    ∧ sortowane stSort [0, 1] = [0, 1] := by decide

/-- C6 (amended): the sorted display of menu option 6 returns a permutation
of the manager's tasks, ascending by due date with a missing date compared as
`datetime.max.date()`, stable (each key class keeps its stored order), and
every undated task comes after every task whose due date is earlier than the
maximum representable date; a task dated exactly 9999-12-31 ties with the
undated ones and orders among them by insertion.  The source expression is
`sorted(...)`, which builds a new list, so the stored order is untouched. -/
theorem C6_amended_sorted (st : PyState) (l : List Nat)
    (h : ∀ i ∈ l, attrOf st i "termin_wykonaia" = PyVal.none
          ∨ ∃ dt : Date, attrOf st i "termin_wykonaia" = PyVal.date dt ∧ dt.Valid) :
    (sortowane st l).Perm l
    ∧ (sortowane st l).Pairwise (fun a b => dateLe (keyDate st a) (keyDate st b))
    ∧ (∀ kd : Date, (sortowane st l).filter (fun j => decide (keyDate st j = kd))
        = l.filter (fun j => decide (keyDate st j = kd)))
    ∧ (sortowane st l).Pairwise (fun a b =>
        ∀ dt : Date, attrOf st b "termin_wykonaia" = PyVal.date dt → dt ≠ maxDate →
          attrOf st a "termin_wykonaia" ≠ PyVal.none) := by
  refine ⟨sortowane_perm st l, sortowane_pairwise st l,
    fun kd => sortowane_stable st l kd, ?_⟩
  refine List.Pairwise.imp_of_mem ?_ (sortowane_pairwise st l)
  intro a b _ hb hab dt hbd hdne hanone
  have hbl : b ∈ l := (sortowane_perm st l).subset hb
  have hval : dt.Valid := by
    rcases h b hbl with hb0 | ⟨dt', hdt', hv⟩
    · rw [hb0] at hbd
      exact PyVal.noConfusion hbd
    · rw [hdt'] at hbd
      injection hbd with he
      exact he ▸ hv
  have hka : keyDate st a = maxDate := by simp only [keyDate, hanone]
  have hkb : keyDate st b = dt := by simp only [keyDate, hbd]
  rw [hka, hkb] at hab
  exact (dateLt_maxDate dt hval hdne) hab

/-- Witness for C6 (amended) on a concrete mix of dated, undated and tied
tasks: the sorted view is `[3, 0, 2, 1]` — ascending by date, the undated
task last, insertion order preserved between the two tasks tied on the same
date. -/
theorem C6_amended_sorted_witness :
    sortowane stSortW [0, 1, 2, 3] = [3, 0, 2, 1]
    ∧ (sortowane stSortW [0, 1, 2, 3]).Perm [0, 1, 2, 3]
    ∧ (sortowane stSortW [0, 1, 2, 3]).Pairwise
        (fun a b => dateLe (keyDate stSortW a) (keyDate stSortW b)) := by
  have happ := C6_amended_sorted stSortW [0, 1, 2, 3] ?_
  · exact ⟨by decide, happ.1, happ.2.1⟩
  · intro i hi
    fin_cases hi
    · exact Or.inr ⟨⟨2025, 6, 1⟩, rfl, by decide⟩
    · exact Or.inl rfl
    · exact Or.inr ⟨⟨2025, 6, 1⟩, rfl, by decide⟩
    · exact Or.inr ⟨⟨2024, 1, 1⟩, rfl, by decide⟩

theorem loadLine_ok_shape (st : PyState) (m : ManagerZadan) (line : String)
    (st' : PyState) (m' : ManagerZadan)
    (h : loadLine st m line = .ok (st', m')) :
    ∃ z, st'.objs = st.objs ++ [z]
      ∧ m' = { m with zadania := m.zadania ++ [st.objs.length] } := by
  rw [loadLine] at h
  cases hp : parseLineObj line with
  | error e =>
    rw [hp] at h
    exact Except.noConfusion h
  | ok z =>
    rw [hp, Except.ok.injEq, Prod.mk.injEq] at h
    exact ⟨z, by rw [← h.1], by rw [← h.2]⟩

theorem loadLines_ok (ls : List String) : ∀ (st : PyState) (m : ManagerZadan)
    (st' : PyState) (m' : ManagerZadan),
    loadLines st m ls = (st', m', none) →
    st'.objs.length = st.objs.length + ls.length
    ∧ st'.objs.take st.objs.length = st.objs
    ∧ m'.zadania = m.zadania ++ List.range' st.objs.length ls.length := by
  induction ls with
  | nil =>
    intro st m st' m' h
    rw [loadLines, Prod.mk.injEq, Prod.mk.injEq] at h
    obtain ⟨h1, h2, -⟩ := h
    subst h1
    subst h2
    simp
  | cons l ls ih =>
    intro st m st' m' h
    rw [loadLines] at h
    cases hl : loadLine st m l with
    | error e =>
      rw [hl, Prod.mk.injEq, Prod.mk.injEq] at h
      exact absurd h.2.2 (by simp)
    | ok p =>
      obtain ⟨st₂, m₂⟩ := p
      rw [hl] at h
      obtain ⟨z, hobjs, hm⟩ := loadLine_ok_shape st m l st₂ m₂ hl
      obtain ⟨h1, h2, h3⟩ := ih st₂ m₂ st' m' h
      have hlen₂ : st₂.objs.length = st.objs.length + 1 := by
        rw [hobjs]
        simp
      refine ⟨?_, ?_, ?_⟩
      · rw [h1, hlen₂, List.length_cons]
        omega
      · have htt : st'.objs.take st.objs.length
            = (st'.objs.take st₂.objs.length).take st.objs.length := by
          rw [List.take_take]
          congr 1
          omega
        rw [htt, h2, hobjs, List.take_left]
      · rw [h3, hm, hlen₂]
        rw [List.length_cons, List.append_assoc]
        congr 1

/-- C5: a successful `wczytaj_z_pliku` into a manager already holding N tasks
yields N + M tasks, M the number of lines of the file: the new task
identities are appended after the existing ones in file order, and neither
the existing `zadania` entries nor the existing heap objects are cleared. -/
theorem C5_load_additive (st : PyState) (m : ManagerZadan) (nazwa_pliku content : String)
    (st' : PyState) (m' : ManagerZadan)
    (h : wczytaj_z_pliku st m nazwa_pliku content = (st', m', none)) :
    m'.zadania.length = m.zadania.length + (fileLines content).length
    ∧ m'.zadania.take m.zadania.length = m.zadania
    ∧ m'.zadania = m.zadania ++ List.range' st.objs.length (fileLines content).length
    ∧ st'.objs.take st.objs.length = st.objs := by
  rw [wczytaj_z_pliku] at h
  by_cases hp : pathOk m.save_dir nazwa_pliku
  · rw [if_pos hp] at h
    obtain ⟨h1, h2, h3⟩ := loadLines_ok (fileLines content) st m st' m' h
    refine ⟨?_, ?_, h3, h2⟩
    · rw [h3, List.length_append, List.length_range']
    · rw [h3, List.take_left]
  · rw [if_neg hp, Prod.mk.injEq, Prod.mk.injEq] at h
    exact absurd h.2.2 (by simp)

/-- Witness for C5: loading a one-record file into a manager that already
holds one task yields two tasks, the old one first. -/
theorem C5_load_additive_witness :
    wczytaj_z_pliku (st1 objTextTrue) m1 "zadania.txt" c5content
        = (⟨[objTextTrue, objLoaded]⟩, ⟨"/base", [0, 1]⟩, none)
    ∧ (⟨"/base", [0, 1]⟩ : ManagerZadan).zadania.length
        = m1.zadania.length + (fileLines c5content).length := by
  have h : wczytaj_z_pliku (st1 objTextTrue) m1 "zadania.txt" c5content
      = (⟨[objTextTrue, objLoaded]⟩, ⟨"/base", [0, 1]⟩, none) := by decide
  exact ⟨h, (C5_load_additive _ _ _ _ _ _ h).1⟩

theorem toList_append (s t : String) : (s ++ t).toList = s.toList ++ t.toList :=
  String.data_append s t

theorem mk_toList (s : String) : String.mk s.toList = s := rfl

theorem pairStr_toList (p : String × PyVal) :
    (pairStr p).toList = p.1.toList ++ '=' :: (pyStr p.2).toList := by
  rw [pairStr, toList_append, toList_append, List.append_assoc]
  rfl

theorem pyStr_good_val (v : PyVal) (hv : goodVal v) :
    (';' ∉ (pyStr v).toList) ∧ ('=' ∉ (pyStr v).toList) ∧ ('\n' ∉ (pyStr v).toList)
      ∧ ('\r' ∉ (pyStr v).toList) := by
  cases v with
  | bool b => cases b <;> exact ⟨by decide, by decide, by decide, by decide⟩
  | str s => exact ⟨hv.1.1, hv.1.2.1, hv.1.2.2.1, hv.1.2.2.2⟩
  | none => exact absurd hv (by simp [goodVal])
  | date dt => exact absurd hv (by simp [goodVal])

theorem coerce_pyStr (v : PyVal) (hv : goodVal v) : coerceVal (pyStr v) = v := by
  cases v with
  | bool b => cases b <;> rfl
  | str s =>
    obtain ⟨-, h1, h2⟩ := hv
    rw [show pyStr (PyVal.str s) = s from rfl, coerceVal, if_neg (by simp [h1, h2])]
  | none => exact absurd hv (by simp [goodVal])
  | date dt => exact absurd hv (by simp [goodVal])

theorem renderDate_mem (dt : Date) (c : Char) (hc : c ∈ renderDateChars dt) :
    c.isDigit = true ∨ c = '-' := by
  rw [renderDateChars] at hc
  simp only [List.mem_append, List.mem_singleton] at hc
  rcases hc with (((h | h) | h) | h) | h
  · exact Or.inl (allDigits_mem _ (padLeft_allDigits _ _ (natToDec_allDigits _)) c h)
  · exact Or.inr h
  · exact Or.inl (allDigits_mem _ (padLeft_allDigits _ _ (natToDec_allDigits _)) c h)
  · exact Or.inr h
  · exact Or.inl (allDigits_mem _ (padLeft_allDigits _ _ (natToDec_allDigits _)) c h)

theorem renderDate_not_mem (dt : Date) (c : Char) (hd : c.isDigit = false)
    (hc : c ≠ '-') : c ∉ renderDateChars dt := by
  intro hm
  rcases renderDate_mem dt c hm with h | h
  · rw [hd] at h
    exact Bool.noConfusion h
  · exact hc h

theorem getattr?_of_keys_ne (d : Dict) (k : String) (h : ∀ p ∈ d, p.1 ≠ k) :
    getattr? d k = none :=
  getattr?_of_hasattr_false d k ((hasattr_eq_false d k).mpr h)

theorem parsePairs_acc (ps : Dict) : ∀ acc : Dict,
    (∀ p ∈ ps, ('=' ∉ p.1.toList) ∧ coerceVal (pyStr p.2) = p.2) →
    (∀ p ∈ ps, hasattr acc p.1 = false) →
    ((ps.map Prod.fst).Nodup) →
    List.foldlM (fun d pr =>
        match splitFirst '=' (String.toList pr) with
        | none => Except.error PyErr.valueError
        | some (k, v) => Except.ok (setattr d (String.mk k) (coerceVal (String.mk v))))
      acc (ps.map pairStr)
    = Except.ok (acc ++ ps) := by
  induction ps with
  | nil =>
    intro acc _ _ _
    simp only [List.map_nil, List.foldlM_nil, List.append_nil]
    rfl
  | cons p ps ih =>
    intro acc hgood hdis hnd
    rw [List.map_cons, List.foldlM_cons, pairStr_toList p,
      splitFirst_eq '=' _ _ (hgood p (by simp)).1]
    simp only [mk_toList, (hgood p (by simp)).2,
      setattr_absent acc p.1 p.2 (hdis p (by simp))]
    rw [List.map_cons, List.nodup_cons] at hnd
    have hstep := ih (acc ++ [p]) (fun q hq => hgood q (by simp [hq])) ?_ hnd.2
    · show List.foldlM _ (acc ++ [p]) (ps.map pairStr) = _
      rw [hstep, List.append_assoc]
      rfl
    · intro q hq
      rw [hasattr_append, Bool.or_eq_false_iff]
      refine ⟨hdis q (by simp [hq]), ?_⟩
      have hqp : q.1 ≠ p.1 := by
        intro hqp
        exact hnd.1 (hqp ▸ List.mem_map_of_mem Prod.fst hq)
      simp [hasattr]
      exact Ne.symm hqp

theorem parsePairs_good (ps : Dict)
    (hgood : ∀ p ∈ ps, ('=' ∉ p.1.toList) ∧ coerceVal (pyStr p.2) = p.2)
    (hnd : (ps.map Prod.fst).Nodup) :
    parsePairs (ps.map pairStr) = Except.ok ps := by
  have h := parsePairs_acc ps [] hgood (fun p _ => rfl) hnd
  rw [parsePairs]
  rw [h]
  rfl

theorem mkZadanie_dict (tytul opis : String) (dt : Date) (kwargs : Dict)
    (hdis : ∀ p ∈ kwargs, ¬ reservedNames.contains p.1)
    (hnd : (kwargs.map Prod.fst).Nodup) :
    (mkZadanie tytul opis (.date dt) kwargs).dict
      = [("tytul", PyVal.str tytul), ("opis", PyVal.str opis),
         ("termin_wykonaia", PyVal.date dt), ("wykonane", PyVal.bool false)] ++ kwargs := by
  show setattrs [("tytul", PyVal.str tytul), ("opis", PyVal.str opis),
      ("termin_wykonaia", PyVal.date dt), ("wykonane", PyVal.bool false)] kwargs = _
  apply setattrs_disjoint kwargs _ ?_ hnd
  intro p hp
  have hres := hdis p hp
  rw [hasattr_eq_false]
  intro q hq
  simp only [List.mem_cons, List.not_mem_nil, or_false] at hq
  rcases hq with rfl | rfl | rfl | rfl <;>
  · intro he
    apply hres
    rw [← he]
    rfl

theorem mkPiorytetowe_dict (tytul opis : String) (dt : Date) (pv : PyVal) (kwargs : Dict)
    (hdis : ∀ p ∈ kwargs, ¬ reservedNames.contains p.1)
    (hnd : (kwargs.map Prod.fst).Nodup) :
    (mkZadaniePiorytetowe tytul opis (.date dt) pv kwargs).dict
      = [("tytul", PyVal.str tytul), ("opis", PyVal.str opis),
         ("termin_wykonaia", PyVal.date dt), ("wykonane", PyVal.bool false)]
        ++ kwargs ++ [("priorytet", pv)] := by
  show setattr (mkZadanie tytul opis (.date dt) kwargs).dict "priorytet" pv = _
  rw [mkZadanie_dict tytul opis dt kwargs hdis hnd, setattr_absent _ _ _ ?_]
  rw [hasattr_append, Bool.or_eq_false_iff]
  refine ⟨rfl, ?_⟩
  rw [hasattr_eq_false]
  intro q hq hqk
  exact hdis q hq (by rw [hqk]; decide)

theorem mkRegularne_dict (tytul opis : String) (dt : Date) (pv : PyVal) (kwargs : Dict)
    (hdis : ∀ p ∈ kwargs, ¬ reservedNames.contains p.1)
    (hnd : (kwargs.map Prod.fst).Nodup) :
    (mkZadanieRegularne tytul opis (.date dt) pv kwargs).dict
      = [("tytul", PyVal.str tytul), ("opis", PyVal.str opis),
         ("termin_wykonaia", PyVal.date dt), ("wykonane", PyVal.bool false)]
        ++ kwargs ++ [("powtarzalnosc", pv)] := by
  show setattr (mkZadanie tytul opis (.date dt) kwargs).dict "powtarzalnosc" pv = _
  rw [mkZadanie_dict tytul opis dt kwargs hdis hnd, setattr_absent _ _ _ ?_]
  rw [hasattr_append, Bool.or_eq_false_iff]
  refine ⟨rfl, ?_⟩
  rw [hasattr_eq_false]
  intro q hq hqk
  exact hdis q hq (by rw [hqk]; decide)

theorem contains_core_of_not_reserved (k : String) (h : ¬ reservedNames.contains k) :
    coreNames.contains k = false := by
  simp only [List.contains, List.elem_eq_mem, decide_eq_true_eq] at h ⊢
  rw [decide_eq_false_iff_not]
  intro hmem
  apply h
  rw [coreNames] at hmem
  simp only [List.mem_cons, List.not_mem_nil, or_false] at hmem
  rcases hmem with rfl | rfl | rfl | rfl <;> decide

theorem buildTask_eq (sp : TaskSpec) (h : GoodSpec sp) :
    buildTask sp = ⟨sp.klasa, normalDict sp⟩ := by
  obtain ⟨kl, t, o, dt, pole, w, kw⟩ := sp
  obtain ⟨ht, ho, hv, hpo, hpt, hpf, hnd, hkw⟩ := h
  dsimp only at ht ho hv hpo hpt hpf hnd hkw
  have hdis : ∀ p ∈ kw, ¬ reservedNames.contains p.1 := fun p hp => (hkw p hp).2.1
  have hwne : ∀ p ∈ kw, p.1 ≠ "wykonane" := by
    intro p hp he
    exact hdis p hp (by rw [he]; decide)
  have hcore0 : setattr [("tytul", PyVal.str t), ("opis", PyVal.str o),
      ("termin_wykonaia", PyVal.date dt), ("wykonane", PyVal.bool false)]
      "wykonane" (PyVal.bool w)
      = [("tytul", PyVal.str t), ("opis", PyVal.str o),
        ("termin_wykonaia", PyVal.date dt), ("wykonane", PyVal.bool w)] := rfl
  have hvne : ∀ s : String, s ≠ "wykonane" →
      ∀ p ∈ ([(s, PyVal.str pole)] : Dict), p.1 ≠ "wykonane" := by
    intro s hs p hp
    rw [List.mem_singleton] at hp
    rw [hp]
    exact hs
  cases kl with
  | zadanie =>
    show (⟨(mkZadanie t o (.date dt) kw).klasa,
        setattr (mkZadanie t o (.date dt) kw).dict "wykonane" (PyVal.bool w)⟩ : PyObj)
      = ⟨Klasa.zadanie, normalDict ⟨Klasa.zadanie, t, o, dt, pole, w, kw⟩⟩
    congr 1
    rw [mkZadanie_dict t o dt kw hdis hnd,
      setattr_append_left [("tytul", PyVal.str t), ("opis", PyVal.str o),
        ("termin_wykonaia", PyVal.date dt), ("wykonane", PyVal.bool false)] kw
        "wykonane" (PyVal.bool w) rfl hwne, hcore0]
    rw [show normalDict ⟨Klasa.zadanie, t, o, dt, pole, w, kw⟩
        = coreDict ⟨Klasa.zadanie, t, o, dt, pole, w, kw⟩ ++ kw ++ [] from rfl,
      List.append_nil]
    rfl
  | piorytetowe =>
    show (⟨(mkZadaniePiorytetowe t o (.date dt) (.str pole) kw).klasa,
        setattr (mkZadaniePiorytetowe t o (.date dt) (.str pole) kw).dict
          "wykonane" (PyVal.bool w)⟩ : PyObj)
      = ⟨Klasa.piorytetowe, normalDict ⟨Klasa.piorytetowe, t, o, dt, pole, w, kw⟩⟩
    congr 1
    rw [mkPiorytetowe_dict t o dt (.str pole) kw hdis hnd,
      setattr_append_left ([("tytul", PyVal.str t), ("opis", PyVal.str o),
          ("termin_wykonaia", PyVal.date dt), ("wykonane", PyVal.bool false)] ++ kw)
        [("priorytet", PyVal.str pole)] "wykonane" (PyVal.bool w)
        (by rw [hasattr_append]; rfl) (hvne "priorytet" (by decide)),
      setattr_append_left [("tytul", PyVal.str t), ("opis", PyVal.str o),
          ("termin_wykonaia", PyVal.date dt), ("wykonane", PyVal.bool false)] kw
        "wykonane" (PyVal.bool w) rfl hwne, hcore0]
    rfl
  | regularne =>
    show (⟨(mkZadanieRegularne t o (.date dt) (.str pole) kw).klasa,
        setattr (mkZadanieRegularne t o (.date dt) (.str pole) kw).dict
          "wykonane" (PyVal.bool w)⟩ : PyObj)
      = ⟨Klasa.regularne, normalDict ⟨Klasa.regularne, t, o, dt, pole, w, kw⟩⟩
    congr 1
    rw [mkRegularne_dict t o dt (.str pole) kw hdis hnd,
      setattr_append_left ([("tytul", PyVal.str t), ("opis", PyVal.str o),
          ("termin_wykonaia", PyVal.date dt), ("wykonane", PyVal.bool false)] ++ kw)
        [("powtarzalnosc", PyVal.str pole)] "wykonane" (PyVal.bool w)
        (by rw [hasattr_append]; rfl) (hvne "powtarzalnosc" (by decide)),
      setattr_append_left [("tytul", PyVal.str t), ("opis", PyVal.str o),
          ("termin_wykonaia", PyVal.date dt), ("wykonane", PyVal.bool false)] kw
        "wykonane" (PyVal.bool w) rfl hwne, hcore0]
    rfl

theorem saveLineStr_normal (sp : TaskSpec) (h : GoodSpec sp) :
    saveLineStr ⟨sp.klasa, normalDict sp⟩
      = [klasaName sp.klasa, sp.tytul, sp.opis, String.mk (renderDateChars sp.termin)]
        ++ (sp.kwargs ++ variantPart sp ++ [("wykonane", PyVal.bool sp.wyk)]).map pairStr := by
  obtain ⟨kl, t, o, dt, pole, w, kw⟩ := sp
  obtain ⟨ht, ho, hv, hpo, hpt, hpf, hnd, hkw⟩ := h
  dsimp only at ht ho hv hpo hpt hpf hnd hkw
  have hker : ∀ p ∈ kw, (!(coreNames.contains p.1)) = true := by
    intro p hp
    rw [contains_core_of_not_reserved p.1 (hkw p hp).2.1]
    rfl
  have hlam : (fun p : String × PyVal => p.1 ++ "=" ++ pyStr p.2) = pairStr := rfl
  have hwpair : ("wykonane=" ++ pyStr (PyVal.bool w)) = pairStr ("wykonane", PyVal.bool w) := by
    cases w <;> decide
  cases kl with
  | zadanie =>
    rw [saveLineStr,
      show objAttr ⟨Klasa.zadanie, normalDict ⟨Klasa.zadanie, t, o, dt, pole, w, kw⟩⟩
        "tytul" = PyVal.str t from rfl,
      show objAttr ⟨Klasa.zadanie, normalDict ⟨Klasa.zadanie, t, o, dt, pole, w, kw⟩⟩
        "opis" = PyVal.str o from rfl,
      show objAttr ⟨Klasa.zadanie, normalDict ⟨Klasa.zadanie, t, o, dt, pole, w, kw⟩⟩
        "termin_wykonaia" = PyVal.date dt from rfl,
      show objAttr ⟨Klasa.zadanie, normalDict ⟨Klasa.zadanie, t, o, dt, pole, w, kw⟩⟩
        "wykonane" = PyVal.bool w from rfl,
      show (⟨Klasa.zadanie, normalDict ⟨Klasa.zadanie, t, o, dt, pole, w, kw⟩⟩ : PyObj).dict
        = ([("tytul", PyVal.str t), ("opis", PyVal.str o), ("termin_wykonaia", PyVal.date dt),
            ("wykonane", PyVal.bool w)] ++ kw) ++ ([] : Dict) from rfl,
      List.filter_append, List.filter_append,
      show List.filter (fun p => !(coreNames.contains p.1))
          [("tytul", PyVal.str t), ("opis", PyVal.str o), ("termin_wykonaia", PyVal.date dt),
            ("wykonane", PyVal.bool w)] = [] from rfl,
      List.filter_eq_self.mpr hker, hlam, hwpair]
    simp [List.map_append, List.append_assoc]
    exact ⟨rfl, rfl, rfl, rfl⟩
  | piorytetowe =>
    rw [saveLineStr,
      show objAttr ⟨Klasa.piorytetowe, normalDict ⟨Klasa.piorytetowe, t, o, dt, pole, w, kw⟩⟩
        "tytul" = PyVal.str t from rfl,
      show objAttr ⟨Klasa.piorytetowe, normalDict ⟨Klasa.piorytetowe, t, o, dt, pole, w, kw⟩⟩
        "opis" = PyVal.str o from rfl,
      show objAttr ⟨Klasa.piorytetowe, normalDict ⟨Klasa.piorytetowe, t, o, dt, pole, w, kw⟩⟩
        "termin_wykonaia" = PyVal.date dt from rfl,
      show objAttr ⟨Klasa.piorytetowe, normalDict ⟨Klasa.piorytetowe, t, o, dt, pole, w, kw⟩⟩
        "wykonane" = PyVal.bool w from rfl,
      show (⟨Klasa.piorytetowe,
          normalDict ⟨Klasa.piorytetowe, t, o, dt, pole, w, kw⟩⟩ : PyObj).dict
        = ([("tytul", PyVal.str t), ("opis", PyVal.str o), ("termin_wykonaia", PyVal.date dt),
            ("wykonane", PyVal.bool w)] ++ kw) ++ [("priorytet", PyVal.str pole)] from rfl,
      List.filter_append, List.filter_append,
      show List.filter (fun p => !(coreNames.contains p.1))
          [("tytul", PyVal.str t), ("opis", PyVal.str o), ("termin_wykonaia", PyVal.date dt),
            ("wykonane", PyVal.bool w)] = [] from rfl,
      List.filter_eq_self.mpr hker,
      show List.filter (fun p => !(coreNames.contains p.1))
          [("priorytet", PyVal.str pole)] = [("priorytet", PyVal.str pole)] from rfl,
      hlam, hwpair]
    simp [List.map_append, List.append_assoc]
    exact ⟨rfl, rfl, rfl, rfl⟩
  | regularne =>
    rw [saveLineStr,
      show objAttr ⟨Klasa.regularne, normalDict ⟨Klasa.regularne, t, o, dt, pole, w, kw⟩⟩
        "tytul" = PyVal.str t from rfl,
      show objAttr ⟨Klasa.regularne, normalDict ⟨Klasa.regularne, t, o, dt, pole, w, kw⟩⟩
        "opis" = PyVal.str o from rfl,
      show objAttr ⟨Klasa.regularne, normalDict ⟨Klasa.regularne, t, o, dt, pole, w, kw⟩⟩
        "termin_wykonaia" = PyVal.date dt from rfl,
      show objAttr ⟨Klasa.regularne, normalDict ⟨Klasa.regularne, t, o, dt, pole, w, kw⟩⟩
        "wykonane" = PyVal.bool w from rfl,
      show (⟨Klasa.regularne,
          normalDict ⟨Klasa.regularne, t, o, dt, pole, w, kw⟩⟩ : PyObj).dict
        = ([("tytul", PyVal.str t), ("opis", PyVal.str o), ("termin_wykonaia", PyVal.date dt),
            ("wykonane", PyVal.bool w)] ++ kw) ++ [("powtarzalnosc", PyVal.str pole)] from rfl,
      List.filter_append, List.filter_append,
      show List.filter (fun p => !(coreNames.contains p.1))
          [("tytul", PyVal.str t), ("opis", PyVal.str o), ("termin_wykonaia", PyVal.date dt),
            ("wykonane", PyVal.bool w)] = [] from rfl,
      List.filter_eq_self.mpr hker,
      show List.filter (fun p => !(coreNames.contains p.1))
          [("powtarzalnosc", PyVal.str pole)] = [("powtarzalnosc", PyVal.str pole)] from rfl,
      hlam, hwpair]
    simp [List.map_append, List.append_assoc]
    exact ⟨rfl, rfl, rfl, rfl⟩

theorem split_strip_join (parts : List String)
    (hne : parts ≠ [])
    (hsep : ∀ s ∈ parts, ';' ∉ s.toList)
    (hhead : ∀ c, (joinChars ';' (parts.map String.toList)).head? = some c → isSpaceC c = false)
    (hlast : ∀ c, (joinChars ';' (parts.map String.toList)).getLast? = some c →
      isSpaceC c = false) :
    (splitChars ';' (stripChars
        (String.mk (joinChars ';' (parts.map String.toList))).toList)).map String.mk
      = parts := by
  rw [show (String.mk (joinChars ';' (parts.map String.toList))).toList
      = joinChars ';' (parts.map String.toList) from rfl,
    stripChars_eq_self _ hhead hlast,
    splitChars_joinChars ';' _ (by simpa using hne) ?_]
  · have hid : ∀ s ∈ parts, (String.mk ∘ String.toList) s = id s := fun s _ => mk_toList s
    rw [List.map_map, List.map_congr_left hid, List.map_id]
  · intro pl hpl
    rw [List.mem_map] at hpl
    obtain ⟨s, hs, rfl⟩ := hpl
    exact hsep s hs

theorem mkZadanie_kw_wyk (t o : String) (dt : Date) (w : Bool) (kw : Dict)
    (hdis : ∀ p ∈ kw, ¬ reservedNames.contains p.1)
    (hnd : (kw.map Prod.fst).Nodup) :
    (mkZadanie t o (.date dt) (kw ++ [("wykonane", PyVal.bool w)])).dict
      = [("tytul", PyVal.str t), ("opis", PyVal.str o),
         ("termin_wykonaia", PyVal.date dt), ("wykonane", PyVal.bool w)] ++ kw := by
  have hwne : ∀ p ∈ kw, p.1 ≠ "wykonane" := by
    intro p hp he
    exact hdis p hp (by rw [he]; decide)
  show setattrs [("tytul", PyVal.str t), ("opis", PyVal.str o),
      ("termin_wykonaia", PyVal.date dt), ("wykonane", PyVal.bool false)]
      (kw ++ [("wykonane", PyVal.bool w)]) = _
  rw [setattrs_append]
  rw [show setattrs [("tytul", PyVal.str t), ("opis", PyVal.str o),
        ("termin_wykonaia", PyVal.date dt), ("wykonane", PyVal.bool false)] kw
      = [("tytul", PyVal.str t), ("opis", PyVal.str o),
        ("termin_wykonaia", PyVal.date dt), ("wykonane", PyVal.bool false)] ++ kw from ?_]
  · show setattr ([("tytul", PyVal.str t), ("opis", PyVal.str o),
        ("termin_wykonaia", PyVal.date dt), ("wykonane", PyVal.bool false)] ++ kw)
      "wykonane" (PyVal.bool w) = _
    rw [setattr_append_left [("tytul", PyVal.str t), ("opis", PyVal.str o),
        ("termin_wykonaia", PyVal.date dt), ("wykonane", PyVal.bool false)] kw
        "wykonane" (PyVal.bool w) rfl hwne]
    rfl
  · apply setattrs_disjoint kw _ ?_ hnd
    intro p hp
    rw [hasattr_eq_false]
    intro q hq
    simp only [List.mem_cons, List.not_mem_nil, or_false] at hq
    rcases hq with rfl | rfl | rfl | rfl <;>
    · intro he
      apply hdis p hp
      rw [← he]
      rfl

theorem getattr?_kw_wyk (w : Bool) (kw : Dict)
    (hwne : ∀ p ∈ kw, p.1 ≠ "wykonane") :
    getattr? (kw ++ [("wykonane", PyVal.bool w)]) "wykonane" = some (PyVal.bool w) := by
  rw [getattr?_append, getattr?_of_keys_ne kw _ hwne]
  rfl

theorem setattr_wyk_true (t o : String) (dt : Date) (rest : Dict)
    (hr : ∀ p ∈ rest, p.1 ≠ "wykonane") :
    setattr ([("tytul", PyVal.str t), ("opis", PyVal.str o),
      ("termin_wykonaia", PyVal.date dt), ("wykonane", PyVal.bool true)] ++ rest)
      "wykonane" (PyVal.bool true)
    = [("tytul", PyVal.str t), ("opis", PyVal.str o),
      ("termin_wykonaia", PyVal.date dt), ("wykonane", PyVal.bool true)] ++ rest := by
  rw [setattr_append_left [("tytul", PyVal.str t), ("opis", PyVal.str o),
      ("termin_wykonaia", PyVal.date dt), ("wykonane", PyVal.bool true)] rest
      "wykonane" (PyVal.bool true) rfl hr]
  rfl

theorem line_head_last (first : String) (mid : List String) (last : String)
    (hf : first.toList.head? = some 'Z')
    (hl : last.toList.getLast? = some 'e') :
    (∀ c, (joinChars ';' ((first :: mid ++ [last]).map String.toList)).head? = some c →
      isSpaceC c = false)
    ∧ (∀ c, (joinChars ';' ((first :: mid ++ [last]).map String.toList)).getLast? = some c →
      isSpaceC c = false) := by
  constructor
  · intro c hc
    have hmap : ((first :: mid ++ [last]).map String.toList)
        = first.toList :: (mid.map String.toList ++ [last.toList]) := by
      simp
    rw [hmap, head?_joinChars ';' _ _ ?_] at hc
    · rw [hf] at hc
      injection hc with hc
      rw [← hc]
      decide
    · intro hnil
      rw [hnil] at hf
      exact Option.noConfusion hf
  · intro c hc
    have hmap : ((first :: mid ++ [last]).map String.toList)
        = ((first :: mid).map String.toList) ++ [last.toList] := by
      simp
    rw [hmap, getLast?_joinChars ';' _ _ ?_] at hc
    · rw [hl] at hc
      injection hc with hc
      rw [← hc]
      decide
    · intro hnil
      rw [hnil] at hl
      exact Option.noConfusion hl

theorem any_fixed_false (kw : Dict)
    (h1 : ∀ p ∈ kw, p.1 ≠ "tytul") (h2 : ∀ p ∈ kw, p.1 ≠ "opis")
    (h3 : ∀ p ∈ kw, p.1 ≠ "termin") (h4 : ∀ p ∈ kw, p.1 ≠ "self") :
    kw.any (fun p => p.1 == "tytul" || p.1 == "opis" || p.1 == "termin" || p.1 == "self")
      = false := by
  rw [List.any_eq_false]
  intro p hp
  simp [h1 p hp, h2 p hp, h3 p hp, h4 p hp]

theorem pairStr_no_semi (p : String × PyVal) (hk : ';' ∉ p.1.toList)
    (hv : ';' ∉ (pyStr p.2).toList) : ';' ∉ (pairStr p).toList := by
  rw [pairStr_toList]
  intro hm
  rcases List.mem_append.mp hm with h | h
  · exact hk h
  · rcases List.mem_cons.mp h with h | h
    · exact absurd h (by decide)
    · exact hv h


theorem parseLineObj_saveLine (sp : TaskSpec) (h : GoodSpec sp) :
    parseLineObj (String.mk (saveLineChars (buildTask sp))) = Except.ok (buildTask sp) := by
  obtain ⟨kl, t, o, dt, pole, w, kw⟩ := sp
  have hG : GoodSpec ⟨kl, t, o, dt, pole, w, kw⟩ := h
  obtain ⟨ht, ho, hv, hpo, hpt, hpf, hnd, hkw⟩ := h
  dsimp only at ht ho hv hpo hpt hpf hnd hkw
  have hdis : ∀ p ∈ kw, ¬ reservedNames.contains p.1 := fun p hp => (hkw p hp).2.1
  have hkn : ∀ n : String, reservedNames.contains n = true → ∀ p ∈ kw, p.1 ≠ n := by
    intro n hn p hp he
    exact hdis p hp (he ▸ hn)
  have hsep_kw : ∀ p ∈ kw, ';' ∉ (pairStr p).toList := fun p hp =>
    pairStr_no_semi p (hkw p hp).1.1 (pyStr_good_val p.2 (hkw p hp).2.2).1
  have hsep_wp : ';' ∉ (pairStr ("wykonane", PyVal.bool w)).toList := by
    apply pairStr_no_semi ("wykonane", PyVal.bool w)
    · show ';' ∉ "wykonane".toList
      decide
    · cases w <;> decide
  have hgood_kw : ∀ p ∈ kw, ('=' ∉ p.1.toList) ∧ coerceVal (pyStr p.2) = p.2 := by
    intro p hp
    exact ⟨(hkw p hp).1.2.1, coerce_pyStr p.2 (hkw p hp).2.2⟩
  cases kl with
  | zadanie =>
    rw [buildTask_eq _ hG, saveLineChars, saveLineStr_normal _ hG]
    dsimp only [variantPart, klasaName]
    rw [List.append_nil]
    have hsepP : ∀ s ∈ (["Zadanie", t, o, String.mk (renderDateChars dt)]
        ++ (kw ++ [("wykonane", PyVal.bool w)]).map pairStr), ';' ∉ s.toList := by
      intro s hs
      rcases List.mem_append.mp hs with hh | hh
      · simp only [List.mem_cons, List.not_mem_nil, or_false] at hh
        rcases hh with rfl | rfl | rfl | rfl
        · decide
        · exact ht.1
        · exact ho.1
        · exact renderDate_not_mem dt ';' (by decide) (by decide)
      · rw [List.mem_map] at hh
        obtain ⟨p, hp, rfl⟩ := hh
        rcases List.mem_append.mp hp with hpk | hpw
        · exact hsep_kw p hpk
        · rw [List.mem_singleton] at hpw
          rw [hpw]
          exact hsep_wp
    have hshape : (["Zadanie", t, o, String.mk (renderDateChars dt)]
        ++ (kw ++ [("wykonane", PyVal.bool w)]).map pairStr)
        = "Zadanie" :: ([t, o, String.mk (renderDateChars dt)] ++ kw.map pairStr)
          ++ [pairStr ("wykonane", PyVal.bool w)] := by
      simp
    have hhl := line_head_last "Zadanie"
      ([t, o, String.mk (renderDateChars dt)] ++ kw.map pairStr)
      (pairStr ("wykonane", PyVal.bool w)) (by decide) (by cases w <;> decide)
    have hheadP : ∀ c, (joinChars ';' ((["Zadanie", t, o, String.mk (renderDateChars dt)]
        ++ (kw ++ [("wykonane", PyVal.bool w)]).map pairStr).map String.toList)).head?
          = some c → isSpaceC c = false := by
      rw [hshape]
      exact hhl.1
    have hlastP : ∀ c, (joinChars ';' ((["Zadanie", t, o, String.mk (renderDateChars dt)]
        ++ (kw ++ [("wykonane", PyVal.bool w)]).map pairStr).map String.toList)).getLast?
          = some c → isSpaceC c = false := by
      rw [hshape]
      exact hhl.2
    have hparts := split_strip_join
      (["Zadanie", t, o, String.mk (renderDateChars dt)]
        ++ (kw ++ [("wykonane", PyVal.bool w)]).map pairStr)
      (by simp) hsepP hheadP hlastP
    rw [parseLineObj, hparts]
    simp only [List.cons_append, List.nil_append]
    have hgoodA : ∀ p ∈ (kw ++ [("wykonane", PyVal.bool w)]),
        ('=' ∉ p.1.toList) ∧ coerceVal (pyStr p.2) = p.2 := by
      intro p hp
      rcases List.mem_append.mp hp with hh | hh
      · exact hgood_kw p hh
      · rw [List.mem_singleton] at hh
        subst hh
        refine ⟨?_, ?_⟩
        · show '=' ∉ "wykonane".toList
          decide
        · cases w <;> rfl
    have hndA : ((kw ++ [("wykonane", PyVal.bool w)]).map Prod.fst).Nodup := by
      rw [List.map_append, List.nodup_append]
      refine ⟨hnd, by simp, ?_⟩
      intro a ha hb
      simp only [List.map_cons, List.map_nil, List.mem_singleton] at hb
      subst hb
      rw [List.mem_map] at ha
      obtain ⟨p, hp, hpa⟩ := ha
      exact hkn "wykonane" (by decide) p hp hpa
    rw [parsePairs_good _ hgoodA hndA, parseYMD_renderDate dt hv]
    dsimp only
    have hanyA : (kw ++ [("wykonane", PyVal.bool w)]).any
        (fun p =>
          p.1 == "tytul" || p.1 == "opis" || p.1 == "termin" || p.1 == "self") = false := by
      rw [List.any_append, any_fixed_false kw (hkn "tytul" (by decide))
        (hkn "opis" (by decide)) (hkn "termin" (by decide)) (hkn "self" (by decide))]
      rfl
    rw [if_neg (by rw [hanyA]; decide)]
    rw [getattr?_kw_wyk w kw (hkn "wykonane" (by decide))]
    rw [show normalDict ⟨Klasa.zadanie, t, o, dt, pole, w, kw⟩
        = coreDict ⟨Klasa.zadanie, t, o, dt, pole, w, kw⟩ ++ kw ++ [] from rfl,
      List.append_nil]
    cases w with
    | true =>
      rw [if_pos (show pyTruthy ((some (PyVal.bool true)).getD PyVal.none) = true from rfl)]
      rw [if_neg (show ¬ ((("Zadanie" == "ZadaniePiorytetowe") : Bool) = true) from by decide)]
      rw [if_neg (show ¬ ((("Zadanie" == "ZadanieRegularne") : Bool) = true) from by decide)]
      rw [mkZadanie_kw_wyk t o dt true kw hdis hnd,
        setattr_wyk_true t o dt kw (hkn "wykonane" (by decide))]
      rfl
    | false =>
      rw [if_neg (show ¬ (pyTruthy ((some (PyVal.bool false)).getD PyVal.none) = true)
        from by decide)]
      rw [if_neg (show ¬ ((("Zadanie" == "ZadaniePiorytetowe") : Bool) = true) from by decide)]
      rw [if_neg (show ¬ ((("Zadanie" == "ZadanieRegularne") : Bool) = true) from by decide)]
      rw [Except.ok.injEq]
      exact congrArg (PyObj.mk Klasa.zadanie) (mkZadanie_kw_wyk t o dt false kw hdis hnd)
  | piorytetowe =>
    rw [buildTask_eq _ hG, saveLineChars, saveLineStr_normal _ hG]
    dsimp only [variantPart, klasaName]
    have hsep_vp : ';' ∉ (pairStr ("priorytet", PyVal.str pole)).toList := by
      apply pairStr_no_semi ("priorytet", PyVal.str pole)
      · show ';' ∉ "priorytet".toList
        decide
      · exact hpo.1
    have hsepP : ∀ s ∈ (["ZadaniePiorytetowe", t, o, String.mk (renderDateChars dt)]
        ++ (kw ++ [("priorytet", PyVal.str pole)]
            ++ [("wykonane", PyVal.bool w)]).map pairStr), ';' ∉ s.toList := by
      intro s hs
      rcases List.mem_append.mp hs with hh | hh
      · simp only [List.mem_cons, List.not_mem_nil, or_false] at hh
        rcases hh with rfl | rfl | rfl | rfl
        · decide
        · exact ht.1
        · exact ho.1
        · exact renderDate_not_mem dt ';' (by decide) (by decide)
      · rw [List.mem_map] at hh
        obtain ⟨p, hp, rfl⟩ := hh
        rcases List.mem_append.mp hp with hpk | hpw
        · rcases List.mem_append.mp hpk with hk1 | hk2
          · exact hsep_kw p hk1
          · rw [List.mem_singleton] at hk2
            rw [hk2]
            exact hsep_vp
        · rw [List.mem_singleton] at hpw
          rw [hpw]
          exact hsep_wp
    have hshape : (["ZadaniePiorytetowe", t, o, String.mk (renderDateChars dt)]
        ++ (kw ++ [("priorytet", PyVal.str pole)]
            ++ [("wykonane", PyVal.bool w)]).map pairStr)
        = "ZadaniePiorytetowe" :: ([t, o, String.mk (renderDateChars dt)]
            ++ (kw ++ [("priorytet", PyVal.str pole)]).map pairStr)
          ++ [pairStr ("wykonane", PyVal.bool w)] := by
      simp
    have hhl := line_head_last "ZadaniePiorytetowe"
      ([t, o, String.mk (renderDateChars dt)]
        ++ (kw ++ [("priorytet", PyVal.str pole)]).map pairStr)
      (pairStr ("wykonane", PyVal.bool w)) (by decide) (by cases w <;> decide)
    have hheadP : ∀ c, (joinChars ';'
        ((["ZadaniePiorytetowe", t, o, String.mk (renderDateChars dt)]
          ++ (kw ++ [("priorytet", PyVal.str pole)]
              ++ [("wykonane", PyVal.bool w)]).map pairStr).map String.toList)).head?
          = some c → isSpaceC c = false := by
      rw [hshape]
      exact hhl.1
    have hlastP : ∀ c, (joinChars ';'
        ((["ZadaniePiorytetowe", t, o, String.mk (renderDateChars dt)]
          ++ (kw ++ [("priorytet", PyVal.str pole)]
              ++ [("wykonane", PyVal.bool w)]).map pairStr).map String.toList)).getLast?
          = some c → isSpaceC c = false := by
      rw [hshape]
      exact hhl.2
    have hparts := split_strip_join
      (["ZadaniePiorytetowe", t, o, String.mk (renderDateChars dt)]
        ++ (kw ++ [("priorytet", PyVal.str pole)]
            ++ [("wykonane", PyVal.bool w)]).map pairStr)
      (by simp) hsepP hheadP hlastP
    rw [parseLineObj, hparts]
    simp only [List.cons_append, List.nil_append]
    have hgoodA : ∀ p ∈ (kw ++ [("priorytet", PyVal.str pole)]
        ++ [("wykonane", PyVal.bool w)]),
        ('=' ∉ p.1.toList) ∧ coerceVal (pyStr p.2) = p.2 := by
      intro p hp
      rcases List.mem_append.mp hp with hh | hh
      · rcases List.mem_append.mp hh with hk1 | hk2
        · exact hgood_kw p hk1
        · rw [List.mem_singleton] at hk2
          subst hk2
          refine ⟨?_, ?_⟩
          · show '=' ∉ "priorytet".toList
            decide
          · show coerceVal (pyStr (PyVal.str pole)) = PyVal.str pole
            exact coerce_pyStr _ ⟨hpo, hpt, hpf⟩
      · rw [List.mem_singleton] at hh
        subst hh
        refine ⟨?_, ?_⟩
        · show '=' ∉ "wykonane".toList
          decide
        · cases w <;> rfl
    have hndA : ((kw ++ [("priorytet", PyVal.str pole)]
        ++ [("wykonane", PyVal.bool w)]).map Prod.fst).Nodup := by
      rw [List.map_append, List.map_append, List.nodup_append]
      refine ⟨?_, by simp, ?_⟩
      · rw [List.nodup_append]
        refine ⟨hnd, by simp, ?_⟩
        intro a ha hb
        simp only [List.map_cons, List.map_nil, List.mem_singleton] at hb
        subst hb
        rw [List.mem_map] at ha
        obtain ⟨p, hp, hpa⟩ := ha
        exact hkn "priorytet" (by decide) p hp hpa
      · intro a ha hb
        simp only [List.map_cons, List.map_nil, List.mem_singleton] at hb
        subst hb
        rcases List.mem_append.mp ha with ha1 | ha2
        · rw [List.mem_map] at ha1
          obtain ⟨p, hp, hpa⟩ := ha1
          exact hkn "wykonane" (by decide) p hp hpa
        · simp only [List.map_cons, List.map_nil, List.mem_singleton] at ha2
          exact absurd ha2 (by decide)
    rw [parsePairs_good _ hgoodA hndA, parseYMD_renderDate dt hv]
    dsimp only
    have hanyA : (kw ++ [("priorytet", PyVal.str pole)]
        ++ [("wykonane", PyVal.bool w)]).any
        (fun p =>
          p.1 == "tytul" || p.1 == "opis" || p.1 == "termin" || p.1 == "self") = false := by
      rw [List.any_append, List.any_append, any_fixed_false kw (hkn "tytul" (by decide))
        (hkn "opis" (by decide)) (hkn "termin" (by decide)) (hkn "self" (by decide))]
      rfl
    rw [if_neg (by rw [hanyA]; decide)]
    have hprio : (getattr? (kw ++ [("priorytet", PyVal.str pole)]
        ++ [("wykonane", PyVal.bool w)]) "priorytet").getD (PyVal.str "Średni")
        = PyVal.str pole := by
      rw [getattr?_append, getattr?_append,
        getattr?_of_keys_ne kw _ (hkn "priorytet" (by decide))]
      rfl
    have hfil : (kw ++ [("priorytet", PyVal.str pole)]
        ++ [("wykonane", PyVal.bool w)]).filter (fun p => p.1 ≠ "priorytet")
        = kw ++ [("wykonane", PyVal.bool w)] := by
      rw [List.filter_append, List.filter_append, List.filter_eq_self.mpr ?_]
      · rw [show List.filter (fun p => decide (p.1 ≠ "priorytet"))
            [("priorytet", PyVal.str pole)] = [] from rfl,
          show List.filter (fun p => decide (p.1 ≠ "priorytet"))
            [("wykonane", PyVal.bool w)] = [("wykonane", PyVal.bool w)] from by
              cases w <;> rfl,
          List.append_nil]
      · intro a ha
        simpa using hkn "priorytet" (by decide) a ha
    have hrest : ∀ p ∈ (kw ++ [("priorytet", PyVal.str pole)]), p.1 ≠ "wykonane" := by
      intro p hp
      rcases List.mem_append.mp hp with h1 | h2
      · exact hkn "wykonane" (by decide) p h1
      · rw [List.mem_singleton] at h2
        subst h2
        show ("priorytet" : String) ≠ "wykonane"
        decide
    have hwk : getattr? (kw ++ [("priorytet", PyVal.str pole)]
        ++ [("wykonane", PyVal.bool w)]) "wykonane" = some (PyVal.bool w) :=
      getattr?_kw_wyk w (kw ++ [("priorytet", PyVal.str pole)]) hrest
    rw [hprio, hfil, hwk]
    have habs : hasattr ([("tytul", PyVal.str t), ("opis", PyVal.str o),
        ("termin_wykonaia", PyVal.date dt), ("wykonane", PyVal.bool w)] ++ kw)
        "priorytet" = false := by
      rw [hasattr_append, (hasattr_eq_false kw "priorytet").mpr (hkn "priorytet" (by decide))]
      rfl
    have hobjP : mkZadaniePiorytetowe t o (.date dt) (PyVal.str pole)
        (kw ++ [("wykonane", PyVal.bool w)])
        = ⟨Klasa.piorytetowe, ([("tytul", PyVal.str t), ("opis", PyVal.str o),
            ("termin_wykonaia", PyVal.date dt), ("wykonane", PyVal.bool w)] ++ kw)
            ++ [("priorytet", PyVal.str pole)]⟩ := by
      have hdict : (mkZadaniePiorytetowe t o (.date dt) (PyVal.str pole)
          (kw ++ [("wykonane", PyVal.bool w)])).dict
          = ([("tytul", PyVal.str t), ("opis", PyVal.str o),
              ("termin_wykonaia", PyVal.date dt), ("wykonane", PyVal.bool w)] ++ kw)
            ++ [("priorytet", PyVal.str pole)] := by
        show setattr (mkZadanie t o (.date dt) (kw ++ [("wykonane", PyVal.bool w)])).dict
          "priorytet" (PyVal.str pole) = _
        rw [mkZadanie_kw_wyk t o dt w kw hdis hnd, setattr_absent _ _ _ habs]
      exact congrArg (PyObj.mk Klasa.piorytetowe) hdict
    cases w with
    | true =>
      rw [if_pos (show pyTruthy ((some (PyVal.bool true)).getD PyVal.none) = true from rfl)]
      rw [if_pos (show (("ZadaniePiorytetowe" == "ZadaniePiorytetowe") : Bool) = true
        from by decide)]
      rw [hobjP]
      dsimp only
      rw [List.append_assoc,
        setattr_wyk_true t o dt (kw ++ [("priorytet", PyVal.str pole)]) hrest]
      rfl
    | false =>
      rw [if_neg (show ¬ (pyTruthy ((some (PyVal.bool false)).getD PyVal.none) = true)
        from by decide)]
      rw [if_pos (show (("ZadaniePiorytetowe" == "ZadaniePiorytetowe") : Bool) = true
        from by decide)]
      rw [hobjP]
      rfl
  | regularne =>
    rw [buildTask_eq _ hG, saveLineChars, saveLineStr_normal _ hG]
    dsimp only [variantPart, klasaName]
    have hsep_vp : ';' ∉ (pairStr ("powtarzalnosc", PyVal.str pole)).toList := by
      apply pairStr_no_semi ("powtarzalnosc", PyVal.str pole)
      · show ';' ∉ "powtarzalnosc".toList
        decide
      · exact hpo.1
    have hsepP : ∀ s ∈ (["ZadanieRegularne", t, o, String.mk (renderDateChars dt)]
        ++ (kw ++ [("powtarzalnosc", PyVal.str pole)]
            ++ [("wykonane", PyVal.bool w)]).map pairStr), ';' ∉ s.toList := by
      intro s hs
      rcases List.mem_append.mp hs with hh | hh
      · simp only [List.mem_cons, List.not_mem_nil, or_false] at hh
        rcases hh with rfl | rfl | rfl | rfl
        · decide
        · exact ht.1
        · exact ho.1
        · exact renderDate_not_mem dt ';' (by decide) (by decide)
      · rw [List.mem_map] at hh
        obtain ⟨p, hp, rfl⟩ := hh
        rcases List.mem_append.mp hp with hpk | hpw
        · rcases List.mem_append.mp hpk with hk1 | hk2
          · exact hsep_kw p hk1
          · rw [List.mem_singleton] at hk2
            rw [hk2]
            exact hsep_vp
        · rw [List.mem_singleton] at hpw
          rw [hpw]
          exact hsep_wp
    have hshape : (["ZadanieRegularne", t, o, String.mk (renderDateChars dt)]
        ++ (kw ++ [("powtarzalnosc", PyVal.str pole)]
            ++ [("wykonane", PyVal.bool w)]).map pairStr)
        = "ZadanieRegularne" :: ([t, o, String.mk (renderDateChars dt)]
            ++ (kw ++ [("powtarzalnosc", PyVal.str pole)]).map pairStr)
          ++ [pairStr ("wykonane", PyVal.bool w)] := by
      simp
    have hhl := line_head_last "ZadanieRegularne"
      ([t, o, String.mk (renderDateChars dt)]
        ++ (kw ++ [("powtarzalnosc", PyVal.str pole)]).map pairStr)
      (pairStr ("wykonane", PyVal.bool w)) (by decide) (by cases w <;> decide)
    have hheadP : ∀ c, (joinChars ';'
        ((["ZadanieRegularne", t, o, String.mk (renderDateChars dt)]
          ++ (kw ++ [("powtarzalnosc", PyVal.str pole)]
              ++ [("wykonane", PyVal.bool w)]).map pairStr).map String.toList)).head?
          = some c → isSpaceC c = false := by
      rw [hshape]
      exact hhl.1
    have hlastP : ∀ c, (joinChars ';'
        ((["ZadanieRegularne", t, o, String.mk (renderDateChars dt)]
          ++ (kw ++ [("powtarzalnosc", PyVal.str pole)]
              ++ [("wykonane", PyVal.bool w)]).map pairStr).map String.toList)).getLast?
          = some c → isSpaceC c = false := by
      rw [hshape]
      exact hhl.2
    have hparts := split_strip_join
      (["ZadanieRegularne", t, o, String.mk (renderDateChars dt)]
        ++ (kw ++ [("powtarzalnosc", PyVal.str pole)]
            ++ [("wykonane", PyVal.bool w)]).map pairStr)
      (by simp) hsepP hheadP hlastP
    rw [parseLineObj, hparts]
    simp only [List.cons_append, List.nil_append]
    have hgoodA : ∀ p ∈ (kw ++ [("powtarzalnosc", PyVal.str pole)]
        ++ [("wykonane", PyVal.bool w)]),
        ('=' ∉ p.1.toList) ∧ coerceVal (pyStr p.2) = p.2 := by
      intro p hp
      rcases List.mem_append.mp hp with hh | hh
      · rcases List.mem_append.mp hh with hk1 | hk2
        · exact hgood_kw p hk1
        · rw [List.mem_singleton] at hk2
          subst hk2
          refine ⟨?_, ?_⟩
          · show '=' ∉ "powtarzalnosc".toList
            decide
          · show coerceVal (pyStr (PyVal.str pole)) = PyVal.str pole
            exact coerce_pyStr _ ⟨hpo, hpt, hpf⟩
      · rw [List.mem_singleton] at hh
        subst hh
        refine ⟨?_, ?_⟩
        · show '=' ∉ "wykonane".toList
          decide
        · cases w <;> rfl
    have hndA : ((kw ++ [("powtarzalnosc", PyVal.str pole)]
        ++ [("wykonane", PyVal.bool w)]).map Prod.fst).Nodup := by
      rw [List.map_append, List.map_append, List.nodup_append]
      refine ⟨?_, by simp, ?_⟩
      · rw [List.nodup_append]
        refine ⟨hnd, by simp, ?_⟩
        intro a ha hb
        simp only [List.map_cons, List.map_nil, List.mem_singleton] at hb
        subst hb
        rw [List.mem_map] at ha
        obtain ⟨p, hp, hpa⟩ := ha
        exact hkn "powtarzalnosc" (by decide) p hp hpa
      · intro a ha hb
        simp only [List.map_cons, List.map_nil, List.mem_singleton] at hb
        subst hb
        rcases List.mem_append.mp ha with ha1 | ha2
        · rw [List.mem_map] at ha1
          obtain ⟨p, hp, hpa⟩ := ha1
          exact hkn "wykonane" (by decide) p hp hpa
        · simp only [List.map_cons, List.map_nil, List.mem_singleton] at ha2
          exact absurd ha2 (by decide)
    rw [parsePairs_good _ hgoodA hndA, parseYMD_renderDate dt hv]
    dsimp only
    have hanyA : (kw ++ [("powtarzalnosc", PyVal.str pole)]
        ++ [("wykonane", PyVal.bool w)]).any
        (fun p =>
          p.1 == "tytul" || p.1 == "opis" || p.1 == "termin" || p.1 == "self") = false := by
      rw [List.any_append, List.any_append, any_fixed_false kw (hkn "tytul" (by decide))
        (hkn "opis" (by decide)) (hkn "termin" (by decide)) (hkn "self" (by decide))]
      rfl
    rw [if_neg (by rw [hanyA]; decide)]
    have hpow : (getattr? (kw ++ [("powtarzalnosc", PyVal.str pole)]
        ++ [("wykonane", PyVal.bool w)]) "powtarzalnosc").getD (PyVal.str "codziennie")
        = PyVal.str pole := by
      rw [getattr?_append, getattr?_append,
        getattr?_of_keys_ne kw _ (hkn "powtarzalnosc" (by decide))]
      rfl
    have hfil : (kw ++ [("powtarzalnosc", PyVal.str pole)]
        ++ [("wykonane", PyVal.bool w)]).filter (fun p => p.1 ≠ "powtarzalnosc")
        = kw ++ [("wykonane", PyVal.bool w)] := by
      rw [List.filter_append, List.filter_append, List.filter_eq_self.mpr ?_]
      · rw [show List.filter (fun p => decide (p.1 ≠ "powtarzalnosc"))
            [("powtarzalnosc", PyVal.str pole)] = [] from rfl,
          show List.filter (fun p => decide (p.1 ≠ "powtarzalnosc"))
            [("wykonane", PyVal.bool w)] = [("wykonane", PyVal.bool w)] from by
              cases w <;> rfl,
          List.append_nil]
      · intro a ha
        simpa using hkn "powtarzalnosc" (by decide) a ha
    have hrest : ∀ p ∈ (kw ++ [("powtarzalnosc", PyVal.str pole)]), p.1 ≠ "wykonane" := by
      intro p hp
      rcases List.mem_append.mp hp with h1 | h2
      · exact hkn "wykonane" (by decide) p h1
      · rw [List.mem_singleton] at h2
        subst h2
        show ("powtarzalnosc" : String) ≠ "wykonane"
        decide
    have hwk : getattr? (kw ++ [("powtarzalnosc", PyVal.str pole)]
        ++ [("wykonane", PyVal.bool w)]) "wykonane" = some (PyVal.bool w) :=
      getattr?_kw_wyk w (kw ++ [("powtarzalnosc", PyVal.str pole)]) hrest
    rw [hpow, hfil, hwk]
    have habs : hasattr ([("tytul", PyVal.str t), ("opis", PyVal.str o),
        ("termin_wykonaia", PyVal.date dt), ("wykonane", PyVal.bool w)] ++ kw)
        "powtarzalnosc" = false := by
      rw [hasattr_append,
        (hasattr_eq_false kw "powtarzalnosc").mpr (hkn "powtarzalnosc" (by decide))]
      rfl
    have hobjP : mkZadanieRegularne t o (.date dt) (PyVal.str pole)
        (kw ++ [("wykonane", PyVal.bool w)])
        = ⟨Klasa.regularne, ([("tytul", PyVal.str t), ("opis", PyVal.str o),
            ("termin_wykonaia", PyVal.date dt), ("wykonane", PyVal.bool w)] ++ kw)
            ++ [("powtarzalnosc", PyVal.str pole)]⟩ := by
      have hdict : (mkZadanieRegularne t o (.date dt) (PyVal.str pole)
          (kw ++ [("wykonane", PyVal.bool w)])).dict
          = ([("tytul", PyVal.str t), ("opis", PyVal.str o),
              ("termin_wykonaia", PyVal.date dt), ("wykonane", PyVal.bool w)] ++ kw)
            ++ [("powtarzalnosc", PyVal.str pole)] := by
        show setattr (mkZadanie t o (.date dt) (kw ++ [("wykonane", PyVal.bool w)])).dict
          "powtarzalnosc" (PyVal.str pole) = _
        rw [mkZadanie_kw_wyk t o dt w kw hdis hnd, setattr_absent _ _ _ habs]
      exact congrArg (PyObj.mk Klasa.regularne) hdict
    cases w with
    | true =>
      rw [if_pos (show pyTruthy ((some (PyVal.bool true)).getD PyVal.none) = true from rfl)]
      rw [if_neg (show ¬ ((("ZadanieRegularne" == "ZadaniePiorytetowe") : Bool) = true)
        from by decide)]
      rw [if_pos (show (("ZadanieRegularne" == "ZadanieRegularne") : Bool) = true
        from by decide)]
      rw [hobjP]
      dsimp only
      rw [List.append_assoc,
        setattr_wyk_true t o dt (kw ++ [("powtarzalnosc", PyVal.str pole)]) hrest]
      rfl
    | false =>
      rw [if_neg (show ¬ (pyTruthy ((some (PyVal.bool false)).getD PyVal.none) = true)
        from by decide)]
      rw [if_neg (show ¬ ((("ZadanieRegularne" == "ZadaniePiorytetowe") : Bool) = true)
        from by decide)]
      rw [if_pos (show (("ZadanieRegularne" == "ZadanieRegularne") : Bool) = true
        from by decide)]
      rw [hobjP]
      rfl

theorem pairStr_no_char (c : Char) (hc : c ≠ '=') (p : String × PyVal)
    (hk : c ∉ p.1.toList) (hv : c ∉ (pyStr p.2).toList) : c ∉ (pairStr p).toList := by
  rw [pairStr_toList]
  intro hm
  rcases List.mem_append.mp hm with h | h
  · exact hk h
  · rcases List.mem_cons.mp h with h | h
    · exact hc h
    · exact hv h

theorem saveLine_no_newline (sp : TaskSpec) (h : GoodSpec sp) :
    '\n' ∉ saveLineChars (buildTask sp) := by
  obtain ⟨kl, t, o, dt, pole, w, kw⟩ := sp
  have hG : GoodSpec ⟨kl, t, o, dt, pole, w, kw⟩ := h
  obtain ⟨ht, ho, hv, hpo, hpt, hpf, hnd, hkw⟩ := h
  dsimp only at ht ho hv hpo hpt hpf hnd hkw
  rw [buildTask_eq _ hG, saveLineChars, saveLineStr_normal _ hG]
  dsimp only
  intro hm
  rcases mem_joinChars ';' '\n' _ hm with hc | ⟨pl, hpl, hcp⟩
  · exact absurd hc (by decide)
  rw [List.mem_map] at hpl
  obtain ⟨s, hs, rfl⟩ := hpl
  have hns : '\n' ∉ s.toList := by
    rcases List.mem_append.mp hs with hh | hh
    · simp only [List.mem_cons, List.not_mem_nil, or_false] at hh
      rcases hh with rfl | rfl | rfl | rfl
      · cases kl <;> decide
      · exact ht.2.2.1
      · exact ho.2.2.1
      · exact renderDate_not_mem dt '\n' (by decide) (by decide)
    · rw [List.mem_map] at hh
      obtain ⟨p, hp, rfl⟩ := hh
      rcases List.mem_append.mp hp with hk | hw
      · rcases List.mem_append.mp hk with hk1 | hk2
        · exact pairStr_no_char '\n' (by decide) p (hkw p hk1).1.2.2.1
            (pyStr_good_val p.2 (hkw p hk1).2.2).2.2.1
        · cases kl with
          | zadanie => exact absurd hk2 (List.not_mem_nil p)
          | piorytetowe =>
            rw [show variantPart ⟨Klasa.piorytetowe, t, o, dt, pole, w, kw⟩
                = [("priorytet", PyVal.str pole)] from rfl, List.mem_singleton] at hk2
            subst hk2
            refine pairStr_no_char '\n' (by decide) _ ?_ hpo.2.2.1
            show '\n' ∉ "priorytet".toList
            decide
          | regularne =>
            rw [show variantPart ⟨Klasa.regularne, t, o, dt, pole, w, kw⟩
                = [("powtarzalnosc", PyVal.str pole)] from rfl, List.mem_singleton] at hk2
            subst hk2
            refine pairStr_no_char '\n' (by decide) _ ?_ hpo.2.2.1
            show '\n' ∉ "powtarzalnosc".toList
            decide
      · rw [List.mem_singleton] at hw
        subst hw
        refine pairStr_no_char '\n' (by decide) _ ?_ ?_
        · show '\n' ∉ "wykonane".toList
          decide
        · cases w <;> decide
  exact hns hcp

theorem saveLine_no_cr (sp : TaskSpec) (h : GoodSpec sp) :
    '\r' ∉ saveLineChars (buildTask sp) := by
  obtain ⟨kl, t, o, dt, pole, w, kw⟩ := sp
  have hG : GoodSpec ⟨kl, t, o, dt, pole, w, kw⟩ := h
  obtain ⟨ht, ho, hv, hpo, hpt, hpf, hnd, hkw⟩ := h
  dsimp only at ht ho hv hpo hpt hpf hnd hkw
  rw [buildTask_eq _ hG, saveLineChars, saveLineStr_normal _ hG]
  dsimp only
  intro hm
  rcases mem_joinChars ';' '\r' _ hm with hc | ⟨pl, hpl, hcp⟩
  · exact absurd hc (by decide)
  rw [List.mem_map] at hpl
  obtain ⟨s, hs, rfl⟩ := hpl
  have hns : '\r' ∉ s.toList := by
    rcases List.mem_append.mp hs with hh | hh
    · simp only [List.mem_cons, List.not_mem_nil, or_false] at hh
      rcases hh with rfl | rfl | rfl | rfl
      · cases kl <;> decide
      · exact ht.2.2.2
      · exact ho.2.2.2
      · exact renderDate_not_mem dt '\r' (by decide) (by decide)
    · rw [List.mem_map] at hh
      obtain ⟨p, hp, rfl⟩ := hh
      rcases List.mem_append.mp hp with hk | hw
      · rcases List.mem_append.mp hk with hk1 | hk2
        · exact pairStr_no_char '\r' (by decide) p (hkw p hk1).1.2.2.2
            (pyStr_good_val p.2 (hkw p hk1).2.2).2.2.2
        · cases kl with
          | zadanie => exact absurd hk2 (List.not_mem_nil p)
          | piorytetowe =>
            rw [show variantPart ⟨Klasa.piorytetowe, t, o, dt, pole, w, kw⟩
                = [("priorytet", PyVal.str pole)] from rfl, List.mem_singleton] at hk2
            subst hk2
            refine pairStr_no_char '\r' (by decide) _ ?_ hpo.2.2.2
            show '\r' ∉ "priorytet".toList
            decide
          | regularne =>
            rw [show variantPart ⟨Klasa.regularne, t, o, dt, pole, w, kw⟩
                = [("powtarzalnosc", PyVal.str pole)] from rfl, List.mem_singleton] at hk2
            subst hk2
            refine pairStr_no_char '\r' (by decide) _ ?_ hpo.2.2.2
            show '\r' ∉ "powtarzalnosc".toList
            decide
      · rw [List.mem_singleton] at hw
        subst hw
        refine pairStr_no_char '\r' (by decide) _ ?_ ?_
        · show '\r' ∉ "wykonane".toList
          decide
        · cases w <;> decide
  exact hns hcp

theorem univNl_eq_self (l : List Char) (h : '\r' ∉ l) : univNl l = l := by
  induction l with
  | nil => rfl
  | cons c rest ih =>
    have hc : c ≠ '\r' := fun hc => h (hc ▸ List.mem_cons_self c rest)
    have hr : '\r' ∉ rest := fun hm => h (List.mem_cons_of_mem c hm)
    cases rest with
    | nil =>
      rw [show univNl [c] = if c = '\r' then ['\n'] else [c] from rfl, if_neg hc]
    | cons d rest' =>
      rw [show univNl (c :: d :: rest')
          = if c = '\r' then
              (if d = '\n' then '\n' :: univNl rest' else '\n' :: univNl (d :: rest'))
            else c :: univNl (d :: rest') from rfl,
        if_neg hc, ih hr]

theorem splitChars_flatten_nl (linesC : List (List Char)) :
    (∀ l ∈ linesC, '\n' ∉ l) →
    splitChars '\n' (List.flatten (linesC.map (fun l => l ++ ['\n']))) = linesC ++ [[]] := by
  induction linesC with
  | nil =>
    intro h
    rfl
  | cons l ls ih =>
    intro h
    rw [List.map_cons, List.flatten_cons, List.append_assoc]
    rw [show (['\n'] ++ (ls.map (fun l => l ++ ['\n'])).flatten)
        = '\n' :: (ls.map (fun l => l ++ ['\n'])).flatten from rfl]
    rw [splitChars_append_sep '\n' l _ (h l (List.mem_cons_self l ls)),
      ih (fun x hx => h x (List.mem_cons_of_mem l hx))]
    rfl

theorem fileLines_flatten (linesC : List (List Char)) (h : ∀ l ∈ linesC, '\n' ∉ l)
    (hcr : ∀ l ∈ linesC, '\r' ∉ l) :
    fileLines (String.mk (List.flatten (linesC.map (fun l => l ++ ['\n']))))
      = linesC.map String.mk := by
  have hnocr : '\r' ∉ List.flatten (linesC.map (fun l => l ++ ['\n'])) := by
    intro hm
    rw [List.mem_flatten] at hm
    obtain ⟨piece, hpiece, hmem⟩ := hm
    rw [List.mem_map] at hpiece
    obtain ⟨l, hl, rfl⟩ := hpiece
    rcases List.mem_append.mp hmem with h1 | h2
    · exact hcr l hl h1
    · rw [List.mem_singleton] at h2
      exact absurd h2 (by decide)
  rw [fileLines]
  rw [show (String.mk (List.flatten (linesC.map (fun l => l ++ ['\n'])))).toList
      = List.flatten (linesC.map (fun l => l ++ ['\n'])) from rfl]
  rw [univNl_eq_self _ hnocr]
  rw [splitChars_flatten_nl linesC h]
  rw [List.getLast?_concat]
  show ((linesC ++ [[]]).dropLast).map String.mk = linesC.map String.mk
  rw [List.dropLast_concat]

theorem map_range_saveLine (l : List PyObj) :
    (List.range l.length).map (fun i => saveLineChars ((l[i]?).getD defaultObj) ++ ['\n'])
      = l.map (fun z => saveLineChars z ++ ['\n']) := by
  induction l with
  | nil => rfl
  | cons a tl ih =>
    rw [List.length_cons, List.range_succ_eq_map, List.map_cons, List.map_map]
    have hcomp : ((fun i => saveLineChars (((a :: tl)[i]?).getD defaultObj) ++ ['\n'])
        ∘ Nat.succ) = (fun i => saveLineChars ((tl[i]?).getD defaultObj) ++ ['\n']) := by
      funext i
      show saveLineChars (((a :: tl)[i + 1]?).getD defaultObj) ++ ['\n'] = _
      rw [List.getElem?_cons_succ]
    rw [hcomp, ih, List.getElem?_cons_zero]
    rfl

theorem loadLines_saveLines (specs : List TaskSpec) :
    (∀ sp ∈ specs, GoodSpec sp) → ∀ (st : PyState) (m : ManagerZadan),
    loadLines st m (specs.map (fun sp => String.mk (saveLineChars (buildTask sp))))
      = (⟨st.objs ++ specs.map buildTask⟩,
         { m with zadania := m.zadania ++ List.range' st.objs.length specs.length }, none) := by
  induction specs with
  | nil =>
    intro h st m
    rw [List.map_nil, loadLines, List.map_nil, List.append_nil, List.length_nil,
      show List.range' st.objs.length 0 = [] from rfl, List.append_nil]
  | cons sp sps ih =>
    intro h st m
    have hline : loadLine st m (String.mk (saveLineChars (buildTask sp)))
        = .ok (⟨st.objs ++ [buildTask sp]⟩,
            { m with zadania := m.zadania ++ [st.objs.length] }) := by
      rw [loadLine, parseLineObj_saveLine sp (h sp (List.mem_cons_self sp sps))]
    rw [List.map_cons, loadLines, hline]
    dsimp only
    rw [ih (fun q hq => h q (List.mem_cons_of_mem sp hq)) ⟨st.objs ++ [buildTask sp]⟩
      { m with zadania := m.zadania ++ [st.objs.length] }]
    dsimp only
    rw [List.length_append, List.length_cons, List.length_nil, List.append_assoc,
      List.append_assoc, List.map_cons]
    rw [show [buildTask sp] ++ sps.map buildTask = buildTask sp :: sps.map buildTask from rfl]
    rw [show [st.objs.length] ++ List.range' (st.objs.length + (0 + 1)) sps.length
        = st.objs.length :: List.range' (st.objs.length + 1) sps.length from by
      rw [show st.objs.length + (0 + 1) = st.objs.length + 1 from by omega]
      rfl]
    rw [show st.objs.length :: List.range' (st.objs.length + 1) sps.length
        = List.range' st.objs.length (sps.length + 1) from
      (List.range'_succ st.objs.length sps.length 1).symm]
    rfl

/-- C1: counterexamples to the unconditional round-trip.  A task without a
due date saves fine (the literal text `None` is written) but the strict
loader raises `ValueError`; a title containing a newline corrupts the line
format and the reload raises `IndexError`; a text extra whose value is the
literal `"True"` is saved and reloaded, but comes back as the boolean
`True`, not the original text. -/
theorem C1_counterexample :
    ((zapisz_do_pliku (st1 objNoDate) m1 "zadania.txt").isOk = true
      ∧ (wczytaj_z_pliku st0 m0 "zadania.txt" (saveContent (st1 objNoDate) m1)).2.2
          = some PyErr.valueError)
    ∧ ((zapisz_do_pliku (st1 objNewline) m1 "zadania.txt").isOk = true
      ∧ (wczytaj_z_pliku st0 m0 "zadania.txt" (saveContent (st1 objNewline) m1)).2.2
          = some PyErr.indexError)
    ∧ ((wczytaj_z_pliku st0 m0 "zadania.txt" (saveContent (st1 objTextTrue) m1)).2.2 = none
      ∧ getattr? objTextTrue.dict "note" = some (PyVal.str "True")
      ∧ ((wczytaj_z_pliku st0 m0 "zadania.txt"
            (saveContent (st1 objTextTrue) m1)).1.objs[0]?).map
          (fun z => getattr? z.dict "note") = some (some (PyVal.bool true))) :=
  ⟨⟨by decide, by decide⟩, ⟨by decide, by decide⟩, by decide, by decide, by decide⟩

/-- C1 (amended): for a manager whose tasks all carry a valid due date, whose
titles, descriptions, variant fields, extras keys and text extras values are
free of `;`, `=` and the line terminators `LF` and `CR` (text-mode reading
breaks lines at either), whose text values are not the boolean literals, and
whose extras keys are distinct and avoid the reserved attribute names and
`self` (which collide with constructor parameters on reload),
`zapisz_do_pliku` followed by `wczytaj_z_pliku` into a fresh manager
reproduces every task exactly: same class, title, description, due date,
completion flag and extras. -/
theorem C1_amended_round_trip (specs : List TaskSpec) (h : ∀ sp ∈ specs, GoodSpec sp) :
    zapisz_do_pliku ⟨specs.map buildTask⟩ ⟨"/base", List.range specs.length⟩ "zadania.txt"
      = .ok ("/base/zadania.txt",
          saveContent ⟨specs.map buildTask⟩ ⟨"/base", List.range specs.length⟩)
    ∧ wczytaj_z_pliku ⟨[]⟩ ⟨"/base", []⟩ "zadania.txt"
        (saveContent ⟨specs.map buildTask⟩ ⟨"/base", List.range specs.length⟩)
      = (⟨specs.map buildTask⟩, ⟨"/base", List.range specs.length⟩, none) := by
  have hcontent : saveContent ⟨specs.map buildTask⟩ ⟨"/base", List.range specs.length⟩
      = String.mk (List.flatten (((specs.map buildTask).map saveLineChars).map
          (fun lc => lc ++ ['\n']))) := by
    rw [saveContent]
    dsimp only
    rw [show specs.length = (specs.map buildTask).length from (List.length_map _ _).symm]
    rw [map_range_saveLine (specs.map buildTask)]
    rw [show (fun z => saveLineChars z ++ ['\n'])
        = ((fun lc => lc ++ ['\n']) ∘ saveLineChars) from rfl, ← List.map_map]
  constructor
  · rw [zapisz_do_pliku]
    dsimp only
    rw [if_pos (show pathOk "/base" "zadania.txt" = true from by decide)]
    rw [show osJoin "/base" "zadania.txt" = "/base/zadania.txt" from by decide]
  · rw [wczytaj_z_pliku]
    dsimp only
    rw [if_pos (show pathOk "/base" "zadania.txt" = true from by decide)]
    have hnl : ∀ l ∈ (specs.map buildTask).map saveLineChars, '\n' ∉ l := by
      intro l hl
      rw [List.mem_map] at hl
      obtain ⟨z, hz, rfl⟩ := hl
      rw [List.mem_map] at hz
      obtain ⟨sp, hsp, rfl⟩ := hz
      exact saveLine_no_newline sp (h sp hsp)
    have hcr : ∀ l ∈ (specs.map buildTask).map saveLineChars, '\r' ∉ l := by
      intro l hl
      rw [List.mem_map] at hl
      obtain ⟨z, hz, rfl⟩ := hl
      rw [List.mem_map] at hz
      obtain ⟨sp, hsp, rfl⟩ := hz
      exact saveLine_no_cr sp (h sp hsp)
    rw [hcontent, fileLines_flatten _ hnl hcr]
    rw [List.map_map, List.map_map]
    rw [show ((String.mk ∘ saveLineChars) ∘ buildTask)
        = (fun sp => String.mk (saveLineChars (buildTask sp))) from rfl]
    rw [loadLines_saveLines specs h ⟨[]⟩ ⟨"/base", []⟩]
    simp only [List.nil_append, List.length_nil]
    rw [← List.range_eq_range']

/-- Witness for C1: the three-kind example (a plain task with a text extra,
a completed prioritized task with a boolean extra and a leap-day date, and a
recurring task) satisfies the hypotheses and round-trips exactly. -/
theorem C1_amended_round_trip_witness :
    (∀ sp ∈ specs3, GoodSpec sp)
    ∧ (zapisz_do_pliku ⟨specs3.map buildTask⟩ ⟨"/base", List.range specs3.length⟩
          "zadania.txt"
        = .ok ("/base/zadania.txt",
            saveContent ⟨specs3.map buildTask⟩ ⟨"/base", List.range specs3.length⟩)
      ∧ wczytaj_z_pliku ⟨[]⟩ ⟨"/base", []⟩ "zadania.txt"
          (saveContent ⟨specs3.map buildTask⟩ ⟨"/base", List.range specs3.length⟩)
        = (⟨specs3.map buildTask⟩, ⟨"/base", List.range specs3.length⟩, none)) :=
  ⟨by decide, C1_amended_round_trip specs3 (by decide)⟩
